import Mathlib

/-!
# Camera and rendering pipeline of parallel_tracer

A shallow embedding of `src/camera.hpp` and `src/rtweekend.hpp`.

* `double` values are idealised as elements of a linearly ordered field `F`
  (exact arithmetic); the definitions are generic in `F`, so they evaluate over
  `ℚ` and are reasoned about over `ℝ`. The one result whose rounding decides an
  integer, the quotient `IMG_W / aspect_ratio` of `camera::initialize`, is rounded
  to the nearest `double` (`round_to_double`).
* The `<cmath>` functions `std::sqrt` and `std::tan` are parameters `sqrt` and
  `tan` of the definitions that use them.
* Everything the collaborators may mutate behind the scenes (the function-local
  static random generators, any state of the scene) is one explicit state of
  type `S` that is passed through every call.
* `bool f(..., T& out)` becomes `Option T`.
* `int` values are elements of `Int`; the one conversion from `double` to `int`, in
  `camera::initialize`, is `none` where C++ leaves it undefined.
* A quotient by zero is `0` in a Lean field and an infinity or a NaN in the program: the
  statements below assume what keeps the divisors they depend on away from zero, and
  `ray_color_ieee` follows the NaN of a zero-length direction through `camera::ray_color`.
-/

namespace ParallelTracer

/-! ## Geometry primitives (`vec3.hpp`, `ray.hpp`, `interval.hpp`, `hittable.hpp`) -/

/-- Modelled from the spec: `vec3.hpp` is not part of the sources at hand. A vector of
three `double` components, read through `x()`, `y()`, `z()`. -/
structure vec3 (F : Type) where
  x : F
  y : F
  z : F
deriving DecidableEq, Repr

/-- Modelled from the spec: `point3` is an alias of `vec3` (`vec3.hpp`). -/
abbrev point3 (F : Type) : Type := vec3 F

/-- Modelled from the spec: `color` is an alias of `vec3` (`color.hpp`). -/
abbrev color (F : Type) : Type := vec3 F

namespace vec3

variable {F : Type} [LinearOrderedField F]

/-- Modelled from the spec: `vec3::operator[]` of the missing `vec3.hpp`; component `n`
(the code only reads `p[0]` and `p[1]`). -/
def get (v : vec3 F) (n : Nat) : F :=
  match n with
  | 0 => v.x
  | 1 => v.y
  | _ => v.z

/-- Modelled from the spec: `operator+` of the missing `vec3.hpp`, component-wise sum. -/
def add (a b : vec3 F) : vec3 F := ⟨a.x + b.x, a.y + b.y, a.z + b.z⟩

/-- Modelled from the spec: binary `operator-` of the missing `vec3.hpp`. -/
def sub (a b : vec3 F) : vec3 F := ⟨a.x - b.x, a.y - b.y, a.z - b.z⟩

/-- Modelled from the spec: unary `operator-` of the missing `vec3.hpp`. -/
def neg (a : vec3 F) : vec3 F := ⟨-a.x, -a.y, -a.z⟩

/-- Modelled from the spec: `operator*(double, vec3)` of the missing `vec3.hpp`. -/
def smul (t : F) (a : vec3 F) : vec3 F := ⟨t * a.x, t * a.y, t * a.z⟩

/-- Modelled from the spec: `operator*(vec3, vec3)` of the missing `vec3.hpp`, the
component-wise product the spec writes `⊙`. -/
def mul (a b : vec3 F) : vec3 F := ⟨a.x * b.x, a.y * b.y, a.z * b.z⟩

/-- Modelled from the spec: `operator/(vec3, double)` of the missing `vec3.hpp`, which is
`(1/t) * v`. -/
def div (a : vec3 F) (t : F) : vec3 F := smul (1 / t) a

instance : Add (vec3 F) := ⟨add⟩
instance : Sub (vec3 F) := ⟨sub⟩
instance : Neg (vec3 F) := ⟨neg⟩
instance : Mul (vec3 F) := ⟨mul⟩
instance : HMul F (vec3 F) (vec3 F) := ⟨smul⟩
instance : HMul (vec3 F) F (vec3 F) := ⟨fun a t => smul t a⟩
instance : HDiv (vec3 F) F (vec3 F) := ⟨div⟩

/-- Modelled from the spec: `dot` of the missing `vec3.hpp`. -/
def dot (a b : vec3 F) : F := a.x * b.x + a.y * b.y + a.z * b.z

/-- Modelled from the spec: `cross` of the missing `vec3.hpp` (right-handed). -/
def cross (a b : vec3 F) : vec3 F :=
  ⟨a.y * b.z - a.z * b.y, a.z * b.x - a.x * b.z, a.x * b.y - a.y * b.x⟩

/-- Modelled from the spec: `vec3::length_squared` of the missing `vec3.hpp`. -/
def length_squared (a : vec3 F) : F := a.x * a.x + a.y * a.y + a.z * a.z

/-- Modelled from the spec: `vec3::length` of the missing `vec3.hpp`,
`std::sqrt(length_squared())`. -/
def length (sqrt : F → F) (a : vec3 F) : F := sqrt (length_squared a)

/-- Modelled from the spec: `unit_vector` of the missing `vec3.hpp`, the spec's
`normalize`: `v / v.length()`. -/
def unit_vector (sqrt : F → F) (a : vec3 F) : vec3 F := a / length sqrt a

end vec3

/-- Modelled from the spec: `ray.hpp` is not part of the sources at hand. A ray is an
origin and a direction, read through `origin()` and `direction()`. -/
structure ray (F : Type) where
  origin : point3 F
  direction : vec3 F
deriving DecidableEq, Repr

/-- Modelled from the spec: `interval.hpp` is not part of the sources at hand. A distance
interval; `max = ⊤` stands for the constant `infinity` of `rtweekend.hpp`. -/
structure interval (F : Type) where
  min : F
  max : WithTop F

/-- Modelled from the spec: `hit_record` of the missing `hittable.hpp`: hit point, normal,
the material of the surface (`M` is the type of material handles, the
`shared_ptr<material>` of the code), and the ray parameter. -/
structure hit_record (F M : Type) where
  p : point3 F
  normal : vec3 F
  mat : M
  t : F

/-- Modelled from the spec: the `hittable` interface of the missing `hittable.hpp`
together with the virtual `material::scatter` of the missing `material.hpp`, reached
through `rec.mat`. `hit` returns the record it would write to its out-parameter, `scatter`
the attenuation and the scattered ray; both thread the hidden state `S`. -/
structure hittable (F M S : Type) where
  hit : ray F → interval F → S → Option (hit_record F M) × S
  scatter : M → ray F → hit_record F M → S → Option (color F × ray F) × S

/-! ## `camera::ray_color` -/

section ray_color

variable {F M S : Type} [LinearOrderedField F]

/-- Embeds `camera::ray_color` (camera.hpp 148-185). -/
def ray_color (sqrt : F → F) (r : ray F) (max_depth : Int) (world : hittable F M S)
    (s : S) : color F × S :=
  if max_depth ≤ 0 then
    (⟨0, 0, 0⟩, s)
  else
    match world.hit r ⟨0.001, ⊤⟩ s with
    | (some rec, s1) =>
      match world.scatter rec.mat r rec s1 with
      | (some (attenuation, scattered), s2) =>
        let res := ray_color sqrt scattered (max_depth - 1) world s2
        (attenuation * res.1, res.2)
      | (none, s2) => (⟨0, 0, 0⟩, s2)
    | (none, s1) =>
      let unit_direction := vec3.unit_vector sqrt r.direction
      let a := 0.5 * (unit_direction.y + 1.0)
      (((1.0 - a) * (⟨1.0, 1.0, 1.0⟩ : color F)) + (a * (⟨0.5, 0.7, 1.0⟩ : color F)), s1)
termination_by max_depth.toNat
decreasing_by omega

/-- Instrumented copy of `ray_color`: the same recursion, which also reports the number of
`world.hit` queries made and the recursion depth reached, counted as the number of nested
recursive calls below the outermost call. -/
def ray_color_traced (sqrt : F → F) (r : ray F) (max_depth : Int) (world : hittable F M S)
    (s : S) : (color F × S) × Nat × Nat :=
  if max_depth ≤ 0 then
    ((⟨0, 0, 0⟩, s), 0, 0)
  else
    match world.hit r ⟨0.001, ⊤⟩ s with
    | (some rec, s1) =>
      match world.scatter rec.mat r rec s1 with
      | (some (attenuation, scattered), s2) =>
        let res := ray_color_traced sqrt scattered (max_depth - 1) world s2
        ((attenuation * res.1.1, res.1.2), 1 + res.2.1, 1 + res.2.2)
      | (none, s2) => ((⟨0, 0, 0⟩, s2), 1, 0)
    | (none, s1) =>
      let unit_direction := vec3.unit_vector sqrt r.direction
      let a := 0.5 * (unit_direction.y + 1.0)
      ((((1.0 - a) * (⟨1.0, 1.0, 1.0⟩ : color F)) + (a * (⟨0.5, 0.7, 1.0⟩ : color F)), s1),
        1, 0)
termination_by max_depth.toNat
decreasing_by omega

end ray_color

/-! ## Utilities of `rtweekend.hpp` -/

section rtweekend

variable {F S : Type} [LinearOrderedField F]

/-- Embeds the constant `pi` (rtweekend.hpp 20). The literal `3.1415926535897932385` has
more digits than a `double` holds; the constant is the nearest `double`,
`0x400921FB54442D18`, which is exactly this rational
(3.141592653589793115997963468544185161590576171875). -/
def pi : F := 884279719003555 / 281474976710656

/-- Embeds `degrees_to_radians` (rtweekend.hpp 24-26). -/
def degrees_to_radians (degrees : F) : F := degrees * pi / 180.0

/-- Modelled from the spec: the random utilities the camera draws from, as transitions of
the hidden state `S`: `uniform01` is `distribution(generator)` for the function-local static
`std::uniform_real_distribution<double>(0.0, 1.0)` and `std::mt19937` of `random_double()`,
and `random_in_unit_disk` is the function of that name of the missing `vec3.hpp` (a point of
the unit disk, third component unused). -/
structure random_source (F S : Type) where
  uniform01 : S → F × S
  random_in_unit_disk : S → vec3 F × S

/-- Embeds `random_double()` (rtweekend.hpp 37-42). -/
def random_double (rs : random_source F S) (s : S) : F × S := rs.uniform01 s

end rtweekend

/-! ## `class camera` -/

section camera

variable {F M S : Type} [LinearOrderedField F] [FloorRing F]

/-- Embeds the data members of `class camera` (camera.hpp 20-32 public, 66-77 private). The
private members are indeterminate until `initialize` has run, which assigns every one of
them; they are given the value zero here. -/
structure camera (F : Type) [LinearOrderedField F] where
  aspect_ratio : F := 1.0
  IMG_W : Int := 100
  samples_per_pixel : Int := 10
  max_depth : Int := 10
  vfov : F := 90
  lookFrom : point3 F := ⟨0, 0, 0⟩
  lookAt : point3 F := ⟨0, 0, -1⟩
  vup : vec3 F := ⟨0, 1, 0⟩
  defocus_angle : F := 0
  focus_dist : F := 10
  IMG_H : Int := 0
  center : point3 F := ⟨0, 0, 0⟩
  firstpixel_loc : point3 F := ⟨0, 0, 0⟩
  pixel_delta_u : vec3 F := ⟨0, 0, 0⟩
  pixel_delta_v : vec3 F := ⟨0, 0, 0⟩
  u : vec3 F := ⟨0, 0, 0⟩
  v : vec3 F := ⟨0, 0, 0⟩
  w : vec3 F := ⟨0, 0, 0⟩
  defocus_disk_u : vec3 F := ⟨0, 0, 0⟩
  defocus_disk_v : vec3 F := ⟨0, 0, 0⟩
  pixel_samples_scale : F := 0

/-- The conversion `int(x)` of a `double` (camera.hpp 80): the fractional part is discarded
(truncation toward zero); the conversion is undefined, `none`, when the truncated value does
not fit the 32-bit `int`. -/
def double_to_int (x : F) : Option Int :=
  if -2147483649 < x ∧ x < 2147483648 then
    some (if 0 ≤ x then Int.floor x else Int.ceil x)
  else
    none

/-- Rounding of a number to the nearest integer, a tie going to the even one: the rounding
of the last place in IEEE 754 arithmetic. -/
def round_half_even (x : F) : Int :=
  if x - (Int.floor x : F) < 1 / 2 then Int.floor x
  else if 1 / 2 < x - (Int.floor x : F) then Int.floor x + 1
  else if Int.floor x % 2 = 0 then Int.floor x
  else Int.floor x + 1

/-- The unit in the last place of the `double` nearest to `x`: `2^(e-52)` for the binary
exponent `e` of `x`, which is at least `-1022` (below that the doubles are subnormal and
evenly spaced). -/
def double_ulp (x : F) : F := (2 : F) ^ (max (Int.log 2 |x|) (-1022) - 52)

/-- The `double` nearest to the number `x` (IEEE 754 binary64, round to nearest, ties to
even): the result of a division of two doubles whose exact quotient is `x`. A result beyond
the largest double is an infinity in the program; here it stays a number that is far
outside the range of `int`. -/
def round_to_double (x : F) : F :=
  if x = 0 then 0 else (round_half_even (x / double_ulp x) : F) * double_ulp x

/-- Embeds `camera::initialize` (camera.hpp 79-116); `none` when `int(IMG_W / aspect_ratio)`
is undefined: the quotient by `0.0` is an infinity or a NaN, which no `int` holds, and so is
a quotient outside the range of `int`. The quotient `IMG_W / aspect_ratio` is the one place
where the rounding of a `double` result decides an integer, so it is rounded as the program
rounds it before `int(...)` truncates it; the real-valued geometry below is exact. -/
def camera.initialize (sqrt tan : F → F) (cam : camera F) : Option (camera F) :=
  match (if cam.aspect_ratio = 0 then none
         else double_to_int (round_to_double ((cam.IMG_W : F) / cam.aspect_ratio))) with
  | none => none
  | some IMG_H0 =>
    let IMG_H : Int := if IMG_H0 < 1 then 1 else IMG_H0
    let pixel_samples_scale : F := 1.0 / (cam.samples_per_pixel : F)
    let center := cam.lookFrom
    let theta : F := degrees_to_radians cam.vfov
    let h := tan (theta / 2)
    let viewport_height := 2 * h * cam.focus_dist
    let viewport_width := viewport_height * ((cam.IMG_W : F) / (IMG_H : F))
    let w := vec3.unit_vector sqrt (cam.lookFrom - cam.lookAt)
    let u := vec3.unit_vector sqrt (vec3.cross cam.vup w)
    let v := vec3.cross w u
    let viewport_u := viewport_width * u
    let viewport_v := viewport_height * (-v)
    let pixel_delta_u := viewport_u / (cam.IMG_W : F)
    let pixel_delta_v := viewport_v / (IMG_H : F)
    let viewport_upper_left :=
      center - (cam.focus_dist * w) - viewport_u / (2 : F) - viewport_v / (2 : F)
    let firstpixel_loc := viewport_upper_left + (0.5 : F) * (pixel_delta_u + pixel_delta_v)
    let defocus_radius := cam.focus_dist * tan (degrees_to_radians (cam.defocus_angle / 2))
    some { cam with
      IMG_H := IMG_H
      pixel_samples_scale := pixel_samples_scale
      center := center
      w := w
      u := u
      v := v
      pixel_delta_u := pixel_delta_u
      pixel_delta_v := pixel_delta_v
      firstpixel_loc := firstpixel_loc
      defocus_disk_u := u * defocus_radius
      defocus_disk_v := v * defocus_radius }

/-- Embeds `camera::sample_square` (camera.hpp 135-139). C++ leaves the order of the two
`random_double()` calls unspecified; they are taken left to right. -/
def sample_square (rs : random_source F S) (s : S) : vec3 F × S :=
  let d0 := random_double rs s
  let d1 := random_double rs d0.2
  (⟨d0.1 - 0.5, d1.1 - 0.5, 0⟩, d1.2)

/-- Embeds `camera::defocus_disk_sample` (camera.hpp 141-146). -/
def defocus_disk_sample (rs : random_source F S) (cam : camera F) (s : S) : point3 F × S :=
  let p := rs.random_in_unit_disk s
  (cam.center + (p.1.get 0 * cam.defocus_disk_u) + (p.1.get 1 * cam.defocus_disk_v), p.2)

/-- Embeds `camera::get_ray` (camera.hpp 118-133). -/
def get_ray (rs : random_source F S) (cam : camera F) (i j : Int) (s : S) : ray F × S :=
  let offset := sample_square rs s
  let pixel_sample := cam.firstpixel_loc
                    + ((((i : F) + offset.1.x)) * cam.pixel_delta_u)
                    + ((((j : F) + offset.1.y)) * cam.pixel_delta_v)
  let ray_origin : point3 F × S :=
    if cam.defocus_angle ≤ 0 then (cam.center, offset.2) else defocus_disk_sample rs cam offset.2
  let ray_direction := pixel_sample - ray_origin.1
  (⟨ray_origin.1, ray_direction⟩, ray_origin.2)

/-- The loop `for (int k = 0; k < n; k++) body(k)` on a state of type `σ`. -/
def for_loop {σ : Type} (n : Int) (body : Int → σ → σ) (init : σ) : σ :=
  (List.range n.toNat).foldl (fun st k => body (k : Int) st) init

/-- Embeds the sample loop of one pixel (camera.hpp 50-57): the accumulator `pixel_color`
starts at `color(0,0,0)` and receives `ray_color(get_ray(i, j), max_depth, world)` once per
sample. The `omp parallel for reduction(+:pixel_color)` is taken in its sequential
meaning: the samples run one after the other on the one state. -/
def pixel_color (sqrt : F → F) (rs : random_source F S) (cam : camera F)
    (world : hittable F M S) (i j : Int) (s : S) : color F × S :=
  for_loop cam.samples_per_pixel
    (fun _sample acc =>
      let r := get_ray rs cam i j acc.2
      let c := ray_color sqrt r.1 cam.max_depth world r.2
      (acc.1 + c.1, c.2))
    (⟨0, 0, 0⟩, s)

/-- Embeds the two outer loops of `camera::render` (camera.hpp 45-60) for an arbitrary
computation `pixel i j` of the colour handed to `color_render`: rows `j` from `0` to
`IMG_H - 1`, in each row columns `i` from `0` to `IMG_W - 1`. The result is the list of the
colours handed to `color_render`, in the order of the calls, and the final state. -/
def scanlines (IMG_W IMG_H : Int) (pixel : Int → Int → S → color F × S) (s : S) :
    List (color F) × S :=
  for_loop IMG_H
    (fun j st =>
      for_loop IMG_W
        (fun i st1 =>
          let px := pixel i j st1.2
          (st1.1 ++ [px.1], px.2))
        st)
    ([], s)

/-- Embeds the body of the pixel loop of `camera::render` (camera.hpp 50-58): the sample
loop, then the colour `pixel_samples_scale * pixel_color` handed to `color_render`. -/
def emitted_pixel (sqrt : F → F) (rs : random_source F S) (cam : camera F)
    (world : hittable F M S) (i j : Int) (s : S) : color F × S :=
  let acc := pixel_color sqrt rs cam world i j s
  (cam.pixel_samples_scale * acc.1, acc.2)

/-- Embeds `camera::render` (camera.hpp 37-63): `initialize()`, then for every pixel the
sample loop and `color_render(std::cout, pixel_samples_scale * pixel_color)`. The header and
the progress line written to `std::clog` are left out. -/
def render (sqrt tan : F → F) (rs : random_source F S) (cam : camera F)
    (world : hittable F M S) (s : S) : Option (List (color F) × S) :=
  match camera.initialize sqrt tan cam with
  | none => none
  | some c => some (scanlines c.IMG_W c.IMG_H (emitted_pixel sqrt rs c world) s)

end camera

/-! ## Reference descriptions of the render loops -/

section reference

variable {F M S : Type}

/-- Reference description of the emission order: one loop over the pixel numbers
`k = 0, 1, ...`, pixel number `k` being column `k % W` of row `k / W`. The result after `n`
pixels is the list of the colours emitted so far and the state reached. -/
def flat_pixels (W : Nat) (pixel : Int → Int → S → color F × S) (s : S) :
    Nat → List (color F) × S
  | 0 => ([], s)
  | k + 1 =>
    let px := pixel ((k % W : Nat) : Int) ((k / W : Nat) : Int) (flat_pixels W pixel s k).2
    ((flat_pixels W pixel s k).1 ++ [px.1], px.2)

variable [LinearOrderedField F]

/-- Reference description of the samples of one pixel: the colours
`ray_color(get_ray(i, j), max_depth, world)` of `n` successive samples started in state `s`,
in the order in which they are taken. -/
def sample_colors (sqrt : F → F) (rs : random_source F S) (cam : camera F)
    (world : hittable F M S) (i j : Int) : Nat → S → List (color F)
  | 0, _ => []
  | n + 1, s =>
    let r := get_ray rs cam i j s
    let c := ray_color sqrt r.1 cam.max_depth world r.2
    c.1 :: sample_colors sqrt rs cam world i j n c.2

end reference

/-! ## Concrete scenes for the examples -/

section examples

/-- A scene with hidden state: a counter of the queries made so far. Only the first query
of a run reports a hit (a surface of material `true` at the ray origin); the material `true`
scatters straight up with attenuation one half, any other material absorbs. -/
def first_hit_world : hittable ℚ Bool Nat where
  hit := fun r _ s =>
    (if s = 0 then some ⟨r.origin, ⟨0, 1, 0⟩, true, 1⟩ else none, s + 1)
  scatter := fun m _ rec s =>
    (if m = true then some (⟨1 / 2, 1 / 2, 1 / 2⟩, ⟨rec.p, ⟨0, 1, 0⟩⟩) else none, s + 1)

/-- A scene in which every ray hits and every material scatters (a hall of mirrors). -/
def mirror_world : hittable ℚ Unit Unit where
  hit := fun r _ s => (some ⟨r.origin, ⟨0, 1, 0⟩, (), 1⟩, s)
  scatter := fun _ r rec s => (some (⟨1 / 2, 1 / 2, 1 / 2⟩, ⟨rec.p, r.direction⟩), s)

/-- A scene in which every ray hits and every material absorbs. -/
def black_world : hittable ℚ Unit Unit where
  hit := fun r _ s => (some ⟨r.origin, ⟨0, 1, 0⟩, (), 1⟩, s)
  scatter := fun _ _ _ s => (none, s)

/-- The empty scene: no ray hits. -/
def empty_world : hittable ℚ Unit Unit where
  hit := fun _ _ s => (none, s)
  scatter := fun _ _ _ s => (none, s)

/-- A square root on `ℚ` for the examples: exact on squares of rationals. -/
def rat_sqrt (x : ℚ) : ℚ := (Nat.sqrt x.num.toNat : ℚ) / (Nat.sqrt x.den : ℚ)

/-- The ray from the origin straight up. -/
def up_ray : ray ℚ := ⟨⟨0, 0, 0⟩, ⟨0, 1, 0⟩⟩

/-- A random source for the examples that always draws one half (the centre of the pixel)
and the centre of the lens. -/
def center_source : random_source ℚ Unit where
  uniform01 := fun s => (1 / 2, s)
  random_in_unit_disk := fun s => (⟨0, 0, 0⟩, s)

/-- A tangent on `ℚ` for the examples: zero at zero, and one elsewhere (the tangent of
45 degrees, half the default field of view). -/
def rat_tan (x : ℚ) : ℚ := if x = 0 then 0 else 1

/-- A 2-pixel-wide camera with the default view, `spp` samples per pixel and bounce budget
`depth`. -/
def small_camera (spp depth : Int) : camera ℚ :=
  { IMG_W := 2, samples_per_pixel := spp, max_depth := depth }

/-- A random source that always draws one half and the lens point `(3/5, 4/5, 0)`, which is
on the rim of the unit disk. -/
def rim_source {F : Type} [LinearOrderedField F] : random_source F Unit where
  uniform01 := fun s => (1 / 2, s)
  random_in_unit_disk := fun s => (⟨3 / 5, 4 / 5, 0⟩, s)

end examples

/-! ## The reduction of the sample loop (`omp declare reduction`, camera.hpp 35) -/

section reduction

variable {F : Type} [LinearOrderedField F]

/-- Modelled from the spec: the default constructor `vec3()` of the missing `vec3.hpp`, the
vector `(0,0,0)`. -/
def vec3.init : vec3 F := ⟨0, 0, 0⟩

/-- Embeds the private copy of one worker of `omp parallel for reduction(+:pixel_color)`
(camera.hpp 35, 51-57): it starts at the initializer `omp_priv = vec3()` and receives
`pixel_color += ray_color(r, max_depth, world)` for each sample given to the worker, here
the list of the colours of these samples. -/
def omp_worker (samples : List (color F)) : color F :=
  samples.foldl (fun omp_priv c => omp_priv + c) vec3.init

/-- Embeds the reduction `omp declare reduction(+: vec3: omp_out += omp_in)`
(camera.hpp 35): the private copies of the workers are combined, one after the other, into
the original `pixel_color` with `omp_out += omp_in`. -/
def omp_reduction (pixel_color : color F) (workers : List (List (color F))) : color F :=
  workers.foldl (fun omp_out part => omp_out + omp_worker part) pixel_color

/-- The sum the spec compares with: one worker adds every sample colour, in order, to an
accumulator that starts at `(0,0,0)`. -/
def sequential_sum (samples : List (color F)) : color F :=
  samples.foldl (fun acc c => acc + c) ⟨0, 0, 0⟩

end reduction

/-! ## The background gradient of the spec -/

section gradient

variable {F : Type} [LinearOrderedField F]

/-- The background-gradient formula as the spec words it: with `a = 0.5*(y + 1)` for the
`y` component of the normalized direction, the blend `(1-a)*white + a*sky-blue` of
white `(1,1,1)` and sky blue `(0.5,0.7,1.0)`. -/
def background_gradient (sqrt : F → F) (direction : vec3 F) : color F :=
  ((1 - 0.5 * ((vec3.unit_vector sqrt direction).y + 1)) * (⟨1, 1, 1⟩ : color F))
    + ((0.5 * ((vec3.unit_vector sqrt direction).y + 1)) * (⟨0.5, 0.7, 1.0⟩ : color F))

end gradient

/-! ## `random_double(min, max)` and its function-local statics -/

section random_double_range

variable {F G : Type} [LinearOrderedField F]

/-- Embeds the two function-local statics of `random_double(double min, double max)`
(rtweekend.hpp 31-32): `distribution` holds the bounds it was constructed with, or nothing
before the first call has constructed it; `generator` is the state of the `std::mt19937`. -/
structure random_double_statics (F G : Type) where
  distribution : Option (F × F)
  generator : G

/-- Modelled from the spec: `std::uniform_real_distribution<double>(a, b)` applied to a
generator, from the standard library: the number `a + (b - a)*u` for the next draw `u` of
`[0, 1)` of the generator (`canonical`), and the advanced generator. -/
def uniform_real_distribution (canonical : G → F × G) (a b : F) (g : G) : F × G :=
  (a + (b - a) * (canonical g).1, (canonical g).2)

/-- Embeds `random_double(double min, double max)` (rtweekend.hpp 29-34). A function-local
static is constructed by the first call that reaches its declaration, from that call's
arguments, and is kept by every later call. -/
def random_double_range (canonical : G → F × G) (min max : F)
    (st : random_double_statics F G) : F × random_double_statics F G :=
  let distribution : F × F :=
    match st.distribution with
    | some d => d
    | none => (min, max)
  let x := uniform_real_distribution canonical distribution.1 distribution.2 st.generator
  (x.1, ⟨some distribution, x.2⟩)

end random_double_range

/-! ## The shared generator under `omp parallel for` -/

section shared_generator

variable {F G : Type}

/-- The two accesses that one call `distribution(generator)` of `random_double()` makes to
the static generator: it reads the state, and it writes the advanced state back. -/
inductive rng_access where
  | load
  | store
deriving DecidableEq

/-- The memory seen by the workers of the sample loop: the one static `generator` of
`random_double()` (rtweekend.hpp 40), and per worker the state that a call in progress has
read and the numbers its calls have returned so far, latest first. -/
structure rng_memory (F G : Type) where
  generator : G
  loaded : Nat → Option G
  returned : Nat → List F

/-- One access of worker `t`. Neither `random_double()` nor the sample loop (camera.hpp
51-57) takes a lock, opens a critical section or keeps a generator per thread, so an access
acts on the shared generator directly, whatever the other workers are doing. -/
def rng_exec (draw : G → F × G) (m : rng_memory F G) (t : Nat) : rng_access → rng_memory F G
  | rng_access.load =>
    { m with loaded := fun k => if k = t then some m.generator else m.loaded k }
  | rng_access.store =>
    match m.loaded t with
    | some g =>
      { generator := (draw g).2
        loaded := fun k => if k = t then none else m.loaded k
        returned := fun k => if k = t then (draw g).1 :: m.returned k else m.returned k }
    | none => m

/-- A run of the workers under a schedule: the accesses in the order in which the machine
performs them, each with the worker that makes it. -/
def rng_run (draw : G → F × G) (schedule : List (Nat × rng_access)) (m : rng_memory F G) :
    rng_memory F G :=
  schedule.foldl (fun m1 e => rng_exec draw m1 e.1 e.2) m

end shared_generator

/-! ## Further scenes and generators for the examples -/

section examples_more

/-- A generator for the examples whose state is a counter: a draw returns one half and
advances the counter. -/
def half_canonical (g : Nat) : ℚ × Nat := (1 / 2, g + 1)

/-- A generator for the examples whose state is a counter `g`: a draw returns `g / 8` and
advances the counter, so successive draws of one generator differ. -/
def counter_draw (g : Nat) : ℚ × Nat := ((g : ℚ) / 8, g + 1)

/-- The memory before the sample loop starts: the generator in state `0`, no call in
progress, nothing returned. -/
def rng_start : rng_memory ℚ Nat := ⟨0, fun _ => none, fun _ => []⟩

end examples_more

/-! ## The viewport of `camera::initialize` -/

section viewport

variable {F : Type} [LinearOrderedField F]

/-- Embeds the local `viewport_height` of `camera::initialize` (camera.hpp 90-93), read
off a camera: `2 * tan(theta/2) * focus_dist` with `theta = degrees_to_radians(vfov)`. -/
def viewport_height (tan : F → F) (c : camera F) : F :=
  2 * tan (degrees_to_radians c.vfov / 2) * c.focus_dist

/-- Embeds the local `viewport_width` of `camera::initialize` (camera.hpp 94), read off an
initialised camera. -/
def viewport_width (tan : F → F) (c : camera F) : F :=
  viewport_height tan c * ((c.IMG_W : F) / (c.IMG_H : F))

/-- Embeds the local `viewport_u` of `camera::initialize` (camera.hpp 101), read off an
initialised camera. -/
def viewport_u (tan : F → F) (c : camera F) : vec3 F := viewport_width tan c * c.u

/-- Embeds the local `viewport_v` of `camera::initialize` (camera.hpp 102), read off an
initialised camera. -/
def viewport_v (tan : F → F) (c : camera F) : vec3 F := viewport_height tan c * (-c.v)

/-- Embeds the local `viewport_upper_left` of `camera::initialize` (camera.hpp 109), read
off an initialised camera. -/
def viewport_upper_left (tan : F → F) (c : camera F) : point3 F :=
  c.center - (c.focus_dist * c.w) - viewport_u tan c / (2 : F) - viewport_v tan c / (2 : F)

/-- The spec's non-degenerate configuration: no quotient of `camera::initialize` has a zero
divisor besides the one that the conversion to `int` guards. `lookFrom` differs from
`lookAt`, `vup` is not parallel to the view direction (their cross product is not zero), and
the image has a nonzero width. -/
def non_degenerate (cam : camera F) : Prop :=
  cam.lookFrom ≠ cam.lookAt ∧
  vec3.cross cam.vup (cam.lookFrom - cam.lookAt) ≠ ⟨0, 0, 0⟩ ∧
  cam.IMG_W ≠ 0

end viewport

/-- A random source that always draws one half and the centre of the lens, over any field. -/
def lens_center_source {F : Type} [LinearOrderedField F] : random_source F Unit where
  uniform01 := fun s => (1 / 2, s)
  random_in_unit_disk := fun s => (⟨0, 0, 0⟩, s)

/-! ## Unfolding lemmas for the vector operations -/

namespace vec3
variable {F : Type} [LinearOrderedField F]

theorem add_def (a b : vec3 F) : a + b = ⟨a.x + b.x, a.y + b.y, a.z + b.z⟩ := rfl

theorem sub_def (a b : vec3 F) : a - b = ⟨a.x - b.x, a.y - b.y, a.z - b.z⟩ := rfl

theorem neg_def (a : vec3 F) : -a = ⟨-a.x, -a.y, -a.z⟩ := rfl

theorem mul_def (a b : vec3 F) : a * b = ⟨a.x * b.x, a.y * b.y, a.z * b.z⟩ := rfl

theorem smul_def (t : F) (a : vec3 F) : t * a = ⟨t * a.x, t * a.y, t * a.z⟩ := rfl

theorem mul_scalar_def (a : vec3 F) (t : F) : a * t = ⟨t * a.x, t * a.y, t * a.z⟩ := rfl

theorem div_def (a : vec3 F) (t : F) : a / t = ⟨1 / t * a.x, 1 / t * a.y, 1 / t * a.z⟩ := rfl

end vec3

/-! ## Algebra of `dot`, `cross` and `length` -/

namespace vec3

theorem ext_iff {F : Type} (a b : vec3 F) : a = b ↔ a.x = b.x ∧ a.y = b.y ∧ a.z = b.z := by
  cases a
  cases b
  simp

section
variable {F : Type} [LinearOrderedField F]

theorem length_squared_nonneg (a : vec3 F) : 0 ≤ length_squared a := by
  unfold length_squared
  nlinarith [mul_self_nonneg a.x, mul_self_nonneg a.y, mul_self_nonneg a.z]

theorem length_squared_eq_zero (a : vec3 F) (h : length_squared a = 0) : a = ⟨0, 0, 0⟩ := by
  unfold length_squared at h
  have hx : a.x * a.x = 0 := by
    nlinarith [mul_self_nonneg a.x, mul_self_nonneg a.y, mul_self_nonneg a.z]
  have hy : a.y * a.y = 0 := by
    nlinarith [mul_self_nonneg a.x, mul_self_nonneg a.y, mul_self_nonneg a.z]
  have hz : a.z * a.z = 0 := by
    nlinarith [mul_self_nonneg a.x, mul_self_nonneg a.y, mul_self_nonneg a.z]
  rw [ext_iff]
  exact ⟨mul_self_eq_zero.mp hx, mul_self_eq_zero.mp hy, mul_self_eq_zero.mp hz⟩

theorem length_squared_smul (t : F) (a : vec3 F) :
    length_squared (t * a) = t * t * length_squared a := by
  simp only [smul_def, length_squared]
  ring

theorem dot_smul_left (t : F) (a b : vec3 F) : dot (t * a) b = t * dot a b := by
  simp only [smul_def, dot]
  ring

theorem dot_smul_right (t : F) (a b : vec3 F) : dot a (t * b) = t * dot a b := by
  simp only [smul_def, dot]
  ring

theorem dot_comm (a b : vec3 F) : dot a b = dot b a := by
  simp only [dot]
  ring

theorem dot_self (a : vec3 F) : dot a a = length_squared a := rfl

theorem cross_smul_right (t : F) (a b : vec3 F) : cross a (t * b) = t * cross a b := by
  simp only [smul_def, cross, vec3.mk.injEq]
  refine ⟨?_, ?_, ?_⟩ <;> ring

theorem cross_smul_left (t : F) (a b : vec3 F) : cross (t * a) b = t * cross a b := by
  simp only [smul_def, cross, vec3.mk.injEq]
  refine ⟨?_, ?_, ?_⟩ <;> ring

theorem dot_cross_self_left (a b : vec3 F) : dot (cross a b) a = 0 := by
  simp only [dot, cross]
  ring

theorem dot_cross_self_right (a b : vec3 F) : dot (cross a b) b = 0 := by
  simp only [dot, cross]
  ring

theorem length_squared_cross (a b : vec3 F) :
    length_squared (cross a b) =
      length_squared a * length_squared b - dot a b * dot a b := by
  simp only [length_squared, dot, cross]
  ring

theorem cross_cross_self (u w : vec3 F) :
    cross u (cross w u) = ⟨dot u u * w.x - dot u w * u.x, dot u u * w.y - dot u w * u.y,
      dot u u * w.z - dot u w * u.z⟩ := by
  simp only [dot, cross, vec3.mk.injEq]
  refine ⟨?_, ?_, ?_⟩ <;> ring

theorem unit_vector_def (sqrt : F → F) (a : vec3 F) :
    unit_vector sqrt a = (1 / length sqrt a) * a := rfl

end

theorem length_mul_self (a : vec3 ℝ) :
    length Real.sqrt a * length Real.sqrt a = length_squared a :=
  Real.mul_self_sqrt (length_squared_nonneg a)

theorem length_pos (a : vec3 ℝ) (h : a ≠ ⟨0, 0, 0⟩) : 0 < length Real.sqrt a := by
  unfold length
  apply Real.sqrt_pos.mpr
  rcases lt_or_eq_of_le (length_squared_nonneg a) with h1 | h1
  · exact h1
  · exact absurd (length_squared_eq_zero a h1.symm) h

theorem length_squared_unit_vector (a : vec3 ℝ) (h : a ≠ ⟨0, 0, 0⟩) :
    length_squared (unit_vector Real.sqrt a) = 1 := by
  have hpos := length_pos a h
  rw [unit_vector_def, length_squared_smul, ← length_mul_self]
  field_simp

theorem length_eq_one (a : vec3 ℝ) (h : length_squared a = 1) : length Real.sqrt a = 1 := by
  unfold length
  rw [h, Real.sqrt_one]

end vec3

theorem rat_sqrt_one : rat_sqrt 1 = 1 := by
  simp [rat_sqrt]

/-! ## Unfolding lemmas for `ray_color` -/

section ray_color_lemmas

variable {F M S : Type} [LinearOrderedField F]

theorem ray_color_of_nonpos (sqrt : F → F) (r : ray F) (d : Int) (world : hittable F M S)
    (s : S) (hd : d ≤ 0) : ray_color sqrt r d world s = (⟨0, 0, 0⟩, s) := by
  rw [ray_color, if_pos hd]

theorem ray_color_of_miss (sqrt : F → F) (r : ray F) (d : Int) (world : hittable F M S)
    (s s1 : S) (hd : 0 < d) (hmiss : world.hit r ⟨0.001, ⊤⟩ s = (none, s1)) :
    ray_color sqrt r d world s =
      (((1.0 - 0.5 * ((vec3.unit_vector sqrt r.direction).y + 1.0)) *
          (⟨1.0, 1.0, 1.0⟩ : color F)) +
        ((0.5 * ((vec3.unit_vector sqrt r.direction).y + 1.0)) * (⟨0.5, 0.7, 1.0⟩ : color F)),
       s1) := by
  rw [ray_color, if_neg (not_le.mpr hd), hmiss]

theorem ray_color_of_absorb (sqrt : F → F) (r : ray F) (d : Int) (world : hittable F M S)
    (s s1 s2 : S) (rec : hit_record F M) (hd : 0 < d)
    (hhit : world.hit r ⟨0.001, ⊤⟩ s = (some rec, s1))
    (habs : world.scatter rec.mat r rec s1 = (none, s2)) :
    ray_color sqrt r d world s = (⟨0, 0, 0⟩, s2) := by
  rw [ray_color, if_neg (not_le.mpr hd), hhit]
  simp only [habs]

theorem ray_color_of_scatter (sqrt : F → F) (r : ray F) (d : Int) (world : hittable F M S)
    (s s1 s2 : S) (rec : hit_record F M) (A : color F) (sc : ray F) (hd : 0 < d)
    (hhit : world.hit r ⟨0.001, ⊤⟩ s = (some rec, s1))
    (hsc : world.scatter rec.mat r rec s1 = (some (A, sc), s2)) :
    ray_color sqrt r d world s =
      (A * (ray_color sqrt sc (d - 1) world s2).1, (ray_color sqrt sc (d - 1) world s2).2) := by
  rw [ray_color, if_neg (not_le.mpr hd), hhit]
  simp only [hsc]

theorem ray_color_traced_of_nonpos (sqrt : F → F) (r : ray F) (d : Int)
    (world : hittable F M S) (s : S) (hd : d ≤ 0) :
    ray_color_traced sqrt r d world s = ((⟨0, 0, 0⟩, s), 0, 0) := by
  rw [ray_color_traced, if_pos hd]

theorem ray_color_traced_fst (sqrt : F → F) (world : hittable F M S) (n : Nat) :
    ∀ (d : Int) (r : ray F) (s : S), d.toNat = n →
      (ray_color_traced sqrt r d world s).1 = ray_color sqrt r d world s := by
  induction n with
  | zero =>
    intro d r s hd
    have h0 : d ≤ 0 := by omega
    rw [ray_color_traced_of_nonpos sqrt r d world s h0, ray_color_of_nonpos sqrt r d world s h0]
  | succ n ih =>
    intro d r s hd
    have hpos : ¬ d ≤ 0 := by omega
    rw [ray_color_traced, ray_color, if_neg hpos, if_neg hpos]
    rcases hh : world.hit r ⟨0.001, ⊤⟩ s with ⟨_ | rec, s1⟩
    · rfl
    · simp only
      rcases hs : world.scatter rec.mat r rec s1 with ⟨_ | ⟨A, sc⟩, s2⟩
      · rfl
      · simp only
        rw [ih (d - 1) sc s2 (by omega)]

theorem ray_color_traced_le (sqrt : F → F) (world : hittable F M S) (n : Nat) :
    ∀ (d : Int) (r : ray F) (s : S), d.toNat = n →
      (ray_color_traced sqrt r d world s).2.1 ≤ n ∧
      (ray_color_traced sqrt r d world s).2.2 ≤ n := by
  induction n with
  | zero =>
    intro d r s hd
    have h0 : d ≤ 0 := by omega
    rw [ray_color_traced_of_nonpos sqrt r d world s h0]
    exact ⟨le_refl _, le_refl _⟩
  | succ n ih =>
    intro d r s hd
    have hpos : ¬ d ≤ 0 := by omega
    rw [ray_color_traced, if_neg hpos]
    rcases hh : world.hit r ⟨0.001, ⊤⟩ s with ⟨_ | rec, s1⟩
    · simp only
      omega
    · simp only
      rcases hs : world.scatter rec.mat r rec s1 with ⟨_ | ⟨A, sc⟩, s2⟩
      · simp only
        omega
      · simp only
        have := ih (d - 1) sc s2 (by omega)
        omega

theorem ray_color_traced_eq (sqrt : F → F) (world : hittable F M S)
    (hhit : ∀ r s, ∃ rec s1, world.hit r ⟨0.001, ⊤⟩ s = (some rec, s1))
    (hsc : ∀ m r rec s, ∃ A sc s2, world.scatter m r rec s = (some (A, sc), s2)) (n : Nat) :
    ∀ (d : Int) (r : ray F) (s : S), d.toNat = n →
      (ray_color_traced sqrt r d world s).2.1 = n ∧
      (ray_color_traced sqrt r d world s).2.2 = n := by
  induction n with
  | zero =>
    intro d r s hd
    have h0 : d ≤ 0 := by omega
    rw [ray_color_traced_of_nonpos sqrt r d world s h0]
    exact ⟨rfl, rfl⟩
  | succ n ih =>
    intro d r s hd
    have hpos : ¬ d ≤ 0 := by omega
    obtain ⟨rec, s1, hh⟩ := hhit r s
    obtain ⟨A, sc, s2, hs⟩ := hsc rec.mat r rec s1
    rw [ray_color_traced, if_neg hpos, hh]
    simp only [hs]
    have := ih (d - 1) sc s2 (by omega)
    omega

theorem unit_vector_y (sqrt : F → F) (a : vec3 F) :
    (vec3.unit_vector sqrt a).y = a.y / vec3.length sqrt a := by
  show 1 / vec3.length sqrt a * a.y = a.y / vec3.length sqrt a
  rw [one_div, inv_mul_eq_div]

end ray_color_lemmas

/-! ## Lemmas on the render loops -/

section loop_lemmas

variable {F M S : Type}

theorem for_loop_of_nonpos {σ : Type} (n : Int) (body : Int → σ → σ) (init : σ)
    (hn : n ≤ 0) : for_loop n body init = init := by
  have h : n.toNat = 0 := by omega
  simp [for_loop, h]

theorem for_loop_succ {σ : Type} (n : Nat) (body : Int → σ → σ) (init : σ) :
    for_loop ((n : Int) + 1) body init = body (n : Int) (for_loop (n : Int) body init) := by
  have h : ((n : Int) + 1).toNat = n + 1 := by omega
  simp [for_loop, h, List.range_succ, List.foldl_append]

theorem for_loop_iterate {σ : Type} (n : Nat) (f : σ → σ) (init : σ) :
    for_loop (n : Int) (fun _ st => f st) init = f^[n] init := by
  induction n with
  | zero => exact for_loop_of_nonpos _ _ _ (le_refl _)
  | succ n ih =>
    rw [Nat.cast_succ, for_loop_succ, ih, Function.iterate_succ_apply']

theorem for_loop_toNat {σ : Type} (n : Int) (body : Int → σ → σ) (init : σ) :
    for_loop n body init = for_loop (n.toNat : Int) body init := by
  unfold for_loop
  rw [Int.toNat_ofNat]

theorem flat_pixels_row (W : Nat) (pixel : Int → Int → S → color F × S) (s : S) (j : Nat)
    (i : Nat) (hi : i ≤ W) :
    for_loop (i : Int)
      (fun i st1 => ((st1.1 ++ [(pixel i (j : Int) st1.2).1], (pixel i (j : Int) st1.2).2) :
        List (color F) × S))
      (flat_pixels W pixel s (j * W)) = flat_pixels W pixel s (j * W + i) := by
  induction i with
  | zero => exact for_loop_of_nonpos _ _ _ (le_refl _)
  | succ i ih =>
    have hlt : i < W := hi
    rw [Nat.cast_succ, for_loop_succ, ih (le_of_lt hlt)]
    have h1 : (j * W + i) % W = i := by
      rw [Nat.mul_comm, Nat.mul_add_mod, Nat.mod_eq_of_lt hlt]
    have h2 : (j * W + i) / W = j := by
      rw [Nat.mul_comm, Nat.mul_add_div (by omega), Nat.div_eq_of_lt hlt, Nat.add_zero]
    show _ = flat_pixels W pixel s (j * W + i + 1)
    rw [flat_pixels, h1, h2]

theorem scanlines_eq_flat (IMG_W IMG_H : Int) (pixel : Int → Int → S → color F × S) (s : S) :
    scanlines IMG_W IMG_H pixel s =
      flat_pixels IMG_W.toNat pixel s (IMG_H.toNat * IMG_W.toNat) := by
  unfold scanlines
  rw [for_loop_toNat IMG_H]
  generalize IMG_H.toNat = H
  induction H with
  | zero =>
    rw [Nat.zero_mul]
    exact for_loop_of_nonpos _ _ _ (le_refl _)
  | succ H ih =>
    rw [Nat.cast_succ, for_loop_succ, ih, for_loop_toNat IMG_W,
      flat_pixels_row IMG_W.toNat pixel s H IMG_W.toNat (le_refl _), Nat.succ_mul]

theorem flat_pixels_length (W : Nat) (pixel : Int → Int → S → color F × S) (s : S) (n : Nat) :
    (flat_pixels W pixel s n).1.length = n := by
  induction n with
  | zero => rfl
  | succ n ih => simp [flat_pixels, ih]

theorem flat_pixels_get (W : Nat) (pixel : Int → Int → S → color F × S) (s : S) (n k : Nat)
    (hk : k < n) :
    (flat_pixels W pixel s n).1[k]? =
      some (pixel ((k % W : Nat) : Int) ((k / W : Nat) : Int) (flat_pixels W pixel s k).2).1 := by
  induction n with
  | zero => omega
  | succ n ih =>
    have hlen := flat_pixels_length W pixel s n
    rcases Nat.lt_succ_iff_lt_or_eq.mp hk with h | h
    · simp only [flat_pixels]
      rw [List.getElem?_append_left (by omega), ih h]
    · subst h
      simp only [flat_pixels]
      rw [List.getElem?_append_right (by omega), hlen]
      simp

theorem flat_pixels_forall (W : Nat) (pixel : Int → Int → S → color F × S) (s : S)
    (P : color F → Prop) (hP : ∀ i j s1, P (pixel i j s1).1) (n : Nat) :
    ∀ c ∈ (flat_pixels W pixel s n).1, P c := by
  induction n with
  | zero =>
    intro c hc
    simp [flat_pixels] at hc
  | succ n ih =>
    intro c hc
    simp only [flat_pixels, List.mem_append, List.mem_singleton] at hc
    rcases hc with hc | hc
    · exact ih c hc
    · rw [hc]
      exact hP _ _ _

end loop_lemmas

/-! ## Lemmas on the sample loop -/

section sample_lemmas

variable {F M S : Type} [LinearOrderedField F]

theorem pixel_color_iterate (sqrt : F → F) (rs : random_source F S) (cam : camera F)
    (world : hittable F M S) (i j : Int) (s : S) :
    pixel_color sqrt rs cam world i j s =
      (fun acc : color F × S =>
        ((acc.1 + (ray_color sqrt (get_ray rs cam i j acc.2).1 cam.max_depth world
            (get_ray rs cam i j acc.2).2).1,
          (ray_color sqrt (get_ray rs cam i j acc.2).1 cam.max_depth world
            (get_ray rs cam i j acc.2).2).2) : color F × S))^[cam.samples_per_pixel.toNat]
        (⟨0, 0, 0⟩, s) := by
  unfold pixel_color
  rw [for_loop_toNat, for_loop_iterate]

theorem sample_colors_length (sqrt : F → F) (rs : random_source F S) (cam : camera F)
    (world : hittable F M S) (i j : Int) (n : Nat) :
    ∀ s : S, (sample_colors sqrt rs cam world i j n s).length = n := by
  induction n with
  | zero => intro s; rfl
  | succ n ih => intro s; simp [sample_colors, ih]

theorem iterate_sample_sum (sqrt : F → F) (rs : random_source F S) (cam : camera F)
    (world : hittable F M S) (i j : Int) (n : Nat) :
    ∀ (acc : color F) (s : S),
      ((fun acc : color F × S =>
        ((acc.1 + (ray_color sqrt (get_ray rs cam i j acc.2).1 cam.max_depth world
            (get_ray rs cam i j acc.2).2).1,
          (ray_color sqrt (get_ray rs cam i j acc.2).1 cam.max_depth world
            (get_ray rs cam i j acc.2).2).2) : color F × S))^[n] (acc, s)).1 =
      ⟨acc.x + ((sample_colors sqrt rs cam world i j n s).map vec3.x).sum,
       acc.y + ((sample_colors sqrt rs cam world i j n s).map vec3.y).sum,
       acc.z + ((sample_colors sqrt rs cam world i j n s).map vec3.z).sum⟩ := by
  induction n with
  | zero =>
    intro acc s
    simp [sample_colors]
  | succ n ih =>
    intro acc s
    rw [Function.iterate_succ_apply, ih]
    simp only [sample_colors, List.map_cons, List.sum_cons, vec3.add_def, add_assoc]

theorem pixel_color_sum (sqrt : F → F) (rs : random_source F S) (cam : camera F)
    (world : hittable F M S) (i j : Int) (s : S) :
    (pixel_color sqrt rs cam world i j s).1 =
      ⟨((sample_colors sqrt rs cam world i j cam.samples_per_pixel.toNat s).map vec3.x).sum,
       ((sample_colors sqrt rs cam world i j cam.samples_per_pixel.toNat s).map vec3.y).sum,
       ((sample_colors sqrt rs cam world i j cam.samples_per_pixel.toNat s).map vec3.z).sum⟩ := by
  rw [pixel_color_iterate, iterate_sample_sum]
  simp

theorem sample_colors_black (sqrt : F → F) (rs : random_source F S) (cam : camera F)
    (world : hittable F M S) (i j : Int) (hd : cam.max_depth ≤ 0) (n : Nat) :
    ∀ s : S, ∀ c ∈ sample_colors sqrt rs cam world i j n s, c = ⟨0, 0, 0⟩ := by
  induction n with
  | zero =>
    intro s c hc
    simp [sample_colors] at hc
  | succ n ih =>
    intro s c hc
    simp only [sample_colors, List.mem_cons] at hc
    rcases hc with hc | hc
    · rw [hc, ray_color_of_nonpos _ _ _ _ _ hd]
    · exact ih _ c hc

theorem sum_map_eq_zero {α : Type} (l : List α) (f : α → F) (h : ∀ c ∈ l, f c = 0) :
    (l.map f).sum = 0 := by
  induction l with
  | nil => rfl
  | cons a l ih =>
    rw [List.map_cons, List.sum_cons, h a (List.mem_cons_self _ _),
      ih (fun c hc => h c (List.mem_cons_of_mem _ hc)), add_zero]

theorem emitted_pixel_black (sqrt : F → F) (rs : random_source F S) (cam : camera F)
    (world : hittable F M S) (i j : Int) (s : S) (hd : cam.max_depth ≤ 0) :
    (emitted_pixel sqrt rs cam world i j s).1 = ⟨0, 0, 0⟩ := by
  have hb := sample_colors_black sqrt rs cam world i j hd cam.samples_per_pixel.toNat s
  unfold emitted_pixel
  simp only
  rw [pixel_color_sum, vec3.smul_def]
  simp only
  rw [sum_map_eq_zero _ vec3.x (fun c hc => by rw [hb c hc]),
    sum_map_eq_zero _ vec3.y (fun c hc => by rw [hb c hc]),
    sum_map_eq_zero _ vec3.z (fun c hc => by rw [hb c hc]), mul_zero]

theorem get_ray_origin_of_nonpos (rs : random_source F S) (cam : camera F) (i j : Int) (s : S)
    (h : cam.defocus_angle ≤ 0) : (get_ray rs cam i j s).1.origin = cam.center := by
  unfold get_ray
  simp only [if_pos h]

theorem get_ray_origin_of_pos (rs : random_source F S) (cam : camera F) (i j : Int) (s : S)
    (h : 0 < cam.defocus_angle) :
    (get_ray rs cam i j s).1.origin =
      cam.center
        + ((rs.random_in_unit_disk (sample_square rs s).2).1.x * cam.defocus_disk_u)
        + ((rs.random_in_unit_disk (sample_square rs s).2).1.y * cam.defocus_disk_v) := by
  unfold get_ray
  simp only [if_neg (not_le.mpr h)]
  rfl

theorem get_ray_target (rs : random_source F S) (cam : camera F) (i j : Int) (s : S) :
    (get_ray rs cam i j s).1.origin + (get_ray rs cam i j s).1.direction =
      cam.firstpixel_loc
        + (((i : F) + (sample_square rs s).1.x) * cam.pixel_delta_u)
        + (((j : F) + (sample_square rs s).1.y) * cam.pixel_delta_v) := by
  unfold get_ray
  simp only [vec3.add_def, vec3.sub_def, vec3.smul_def, vec3.mk.injEq]
  refine ⟨?_, ?_, ?_⟩ <;> ring

end sample_lemmas

/-! ## Lemmas on `camera::initialize` and `camera::render` -/

section camera_lemmas

variable {F M S : Type} [LinearOrderedField F] [FloorRing F]

theorem round_half_even_intCast (m : Int) : round_half_even (m : F) = m := by
  unfold round_half_even
  rw [Int.floor_intCast, sub_self, if_pos (by norm_num)]

theorem round_half_even_nonneg (x : F) (hx : 0 ≤ x) : 0 ≤ round_half_even x := by
  have hf : 0 ≤ Int.floor x := Int.floor_nonneg.mpr hx
  unfold round_half_even
  split
  · exact hf
  · split
    · omega
    · split <;> omega

theorem double_ulp_pos (x : F) : 0 < double_ulp x := by
  unfold double_ulp
  positivity

theorem round_to_double_nonneg (x : F) (hx : 0 ≤ x) : 0 ≤ round_to_double x := by
  unfold round_to_double
  split
  · exact le_refl _
  · have h1 : 0 ≤ x / double_ulp x := div_nonneg hx (le_of_lt (double_ulp_pos x))
    have h2 : (0 : F) ≤ (round_half_even (x / double_ulp x) : F) := by
      exact_mod_cast round_half_even_nonneg _ h1
    exact mul_nonneg h2 (le_of_lt (double_ulp_pos x))

theorem double_ulp_of_binade (x : F) (k : Int) (hk : -1022 ≤ k) (hlo : (2 : F) ^ k ≤ |x|)
    (hhi : |x| < (2 : F) ^ (k + 1)) : double_ulp x = (2 : F) ^ (k - 52) := by
  have hpos : 0 < |x| := lt_of_lt_of_le (by positivity) hlo
  have h1 : k ≤ Int.log 2 |x| := by
    apply (Int.zpow_le_iff_le_log (by norm_num) hpos).mp
    exact_mod_cast hlo
  have h2 : Int.log 2 |x| < k + 1 := by
    apply (Int.lt_zpow_iff_log_lt (by norm_num) hpos).mp
    exact_mod_cast hhi
  have h3 : Int.log 2 |x| = k := by omega
  unfold double_ulp
  rw [h3, max_eq_left hk]

theorem round_to_double_of_exact (x : F) (k m : Int) (hk : -1022 ≤ k)
    (hlo : (2 : F) ^ k ≤ |x|) (hhi : |x| < (2 : F) ^ (k + 1))
    (hm : x = (m : F) * (2 : F) ^ (k - 52)) : round_to_double x = x := by
  have hu := double_ulp_of_binade x k hk hlo hhi
  have hx : x ≠ 0 := by
    intro h
    rw [h, abs_zero] at hlo
    exact absurd hlo (not_le.mpr (by positivity))
  have hne : (2 : F) ^ (k - 52) ≠ 0 := by positivity
  unfold round_to_double
  rw [if_neg hx, hu]
  have e : x / (2 : F) ^ (k - 52) = (m : F) := by
    rw [hm]
    field_simp
  rw [e, round_half_even_intCast, ← hm]

theorem round_to_double_intCast (n : Int) (h0 : 0 < n) (h1 : n < 9007199254740992) :
    round_to_double (n : F) = (n : F) := by
  have hnF : (0 : F) < (n : F) := by exact_mod_cast h0
  have habs : |(n : F)| = (n : F) := abs_of_pos hnF
  have hb : (1 : ℕ) < 2 := by norm_num
  have he0 : 0 ≤ Int.log 2 (n : F) := by
    apply (Int.zpow_le_iff_le_log hb hnF).mp
    have : (1 : F) ≤ (n : F) := by exact_mod_cast h0
    simpa using this
  have he1 : Int.log 2 (n : F) < 53 := by
    apply (Int.lt_zpow_iff_log_lt hb hnF).mp
    have : (n : F) < 9007199254740992 := by exact_mod_cast h1
    norm_num
    exact this
  obtain ⟨j, hj⟩ : ∃ j : ℕ, (j : Int) = 52 - Int.log 2 (n : F) := ⟨(52 - Int.log 2 (n : F)).toNat, by omega⟩
  have hexp : Int.log 2 (n : F) - 52 = -(j : Int) := by omega
  apply round_to_double_of_exact (n : F) (Int.log 2 (n : F)) (n * 2 ^ j) (by omega)
  · rw [habs]
    exact_mod_cast Int.zpow_log_le_self hb hnF
  · rw [habs]
    exact_mod_cast Int.lt_zpow_succ_log_self hb (n : F)
  · rw [hexp, zpow_neg, zpow_natCast]
    push_cast
    field_simp

theorem round_to_double_up (x : F) (k f : Int) (hk : -1022 ≤ k)
    (hlo : (2 : F) ^ k ≤ |x|) (hhi : |x| < (2 : F) ^ (k + 1))
    (h1 : (f : F) + 1 / 2 < x / (2 : F) ^ (k - 52))
    (h2 : x / (2 : F) ^ (k - 52) < (f : F) + 1) :
    round_to_double x = ((f + 1 : Int) : F) * (2 : F) ^ (k - 52) := by
  have hu := double_ulp_of_binade x k hk hlo hhi
  have hx : x ≠ 0 := by
    intro h
    rw [h, abs_zero] at hlo
    exact absurd hlo (not_le.mpr (by positivity))
  have hfl : Int.floor (x / (2 : F) ^ (k - 52)) = f := by
    rw [Int.floor_eq_iff]
    exact ⟨by linarith, h2⟩
  unfold round_to_double
  rw [if_neg hx, hu]
  unfold round_half_even
  rw [hfl, if_neg (by linarith), if_pos (by linarith)]

theorem initialize_fields (sqrt tan : F → F) (cam c0 : camera F)
    (h : camera.initialize sqrt tan cam = some c0) :
    c0.IMG_W = cam.IMG_W ∧ c0.samples_per_pixel = cam.samples_per_pixel ∧
    c0.max_depth = cam.max_depth ∧ c0.defocus_angle = cam.defocus_angle ∧
    c0.focus_dist = cam.focus_dist ∧
    c0.pixel_samples_scale = 1.0 / (cam.samples_per_pixel : F) ∧
    c0.center = cam.lookFrom ∧
    c0.w = vec3.unit_vector sqrt (cam.lookFrom - cam.lookAt) ∧
    c0.u = vec3.unit_vector sqrt (vec3.cross cam.vup c0.w) ∧
    c0.v = vec3.cross c0.w c0.u ∧
    c0.defocus_disk_u =
      c0.u * (cam.focus_dist * tan (degrees_to_radians (cam.defocus_angle / 2))) ∧
    c0.defocus_disk_v =
      c0.v * (cam.focus_dist * tan (degrees_to_radians (cam.defocus_angle / 2))) := by
  unfold camera.initialize at h
  split at h
  · cases h
  · cases h
    exact ⟨rfl, rfl, rfl, rfl, rfl, rfl, rfl, rfl, rfl, rfl, rfl, rfl⟩

theorem initialize_height (sqrt tan : F → F) (cam c0 : camera F)
    (h : camera.initialize sqrt tan cam = some c0) :
    cam.aspect_ratio ≠ 0 ∧
    ∃ n : Int, double_to_int (round_to_double ((cam.IMG_W : F) / cam.aspect_ratio)) = some n ∧
      c0.IMG_H = if n < 1 then 1 else n := by
  unfold camera.initialize at h
  split at h
  · cases h
  · rename_i n hn
    cases h
    by_cases ha : cam.aspect_ratio = 0
    · rw [if_pos ha] at hn
      cases hn
    · rw [if_neg ha] at hn
      exact ⟨ha, n, hn, rfl⟩

theorem initialize_isSome (sqrt tan : F → F) (cam : camera F) (ha : cam.aspect_ratio ≠ 0)
    (hlo : -2147483649 < round_to_double ((cam.IMG_W : F) / cam.aspect_ratio))
    (hhi : round_to_double ((cam.IMG_W : F) / cam.aspect_ratio) < 2147483648) :
    ∃ c0, camera.initialize sqrt tan cam = some c0 := by
  unfold camera.initialize
  rw [if_neg ha, double_to_int, if_pos ⟨hlo, hhi⟩]
  exact ⟨_, rfl⟩

theorem round_quotient_unit_aspect (cam : camera F) (ha : cam.aspect_ratio = 1)
    (h0 : 0 < cam.IMG_W) (h1 : cam.IMG_W < 2147483648) :
    round_to_double ((cam.IMG_W : F) / cam.aspect_ratio) = (cam.IMG_W : F) := by
  rw [ha, div_one]
  exact round_to_double_intCast cam.IMG_W h0 (by omega)

theorem initialize_isSome_unit_aspect (sqrt tan : F → F) (cam : camera F)
    (ha : cam.aspect_ratio = 1) (h0 : 0 < cam.IMG_W) (h1 : cam.IMG_W < 2147483648) :
    ∃ c0, camera.initialize sqrt tan cam = some c0 := by
  have hW0 : (0 : F) < (cam.IMG_W : F) := by exact_mod_cast h0
  have hW1 : (cam.IMG_W : F) < 2147483648 := by exact_mod_cast h1
  apply initialize_isSome sqrt tan cam (by rw [ha]; exact one_ne_zero)
  · rw [round_quotient_unit_aspect cam ha h0 h1]
    linarith
  · rw [round_quotient_unit_aspect cam ha h0 h1]
    exact hW1

theorem render_of_initialize (sqrt tan : F → F) (rs : random_source F S) (cam c0 : camera F)
    (world : hittable F M S) (s : S) (hinit : camera.initialize sqrt tan cam = some c0) :
    render sqrt tan rs cam world s =
      some (flat_pixels c0.IMG_W.toNat (emitted_pixel sqrt rs c0 world) s
        (c0.IMG_H.toNat * c0.IMG_W.toNat)) := by
  unfold render
  rw [hinit]
  simp only
  rw [scanlines_eq_flat]

theorem double_to_int_intCast (n : Int) (hlo : -2147483649 < n) (hhi : n < 2147483648) :
    double_to_int (n : F) = some n := by
  have h1 : -2147483649 < (n : F) := by exact_mod_cast hlo
  have h2 : (n : F) < 2147483648 := by exact_mod_cast hhi
  unfold double_to_int
  rw [if_pos ⟨h1, h2⟩, Int.floor_intCast, Int.ceil_intCast, ite_self]

theorem small_camera_initialize (spp depth : Int) :
    ∃ c0, camera.initialize rat_sqrt rat_tan (small_camera spp depth) = some c0 ∧
      c0.IMG_W = 2 ∧ c0.IMG_H = 2 ∧ c0.samples_per_pixel = spp ∧ c0.max_depth = depth := by
  have ha : (small_camera spp depth).aspect_ratio = 1 := by norm_num [small_camera]
  have hW0 : 0 < (small_camera spp depth).IMG_W := by norm_num [small_camera]
  have hW1 : (small_camera spp depth).IMG_W < 2147483648 := by norm_num [small_camera]
  obtain ⟨c0, h0⟩ := initialize_isSome_unit_aspect rat_sqrt rat_tan (small_camera spp depth)
    ha hW0 hW1
  obtain ⟨hW, hs, hd, -⟩ := initialize_fields rat_sqrt rat_tan _ c0 h0
  obtain ⟨-, n, hn, hH⟩ := initialize_height rat_sqrt rat_tan _ c0 h0
  rw [round_quotient_unit_aspect _ ha hW0 hW1] at hn
  have e : (((small_camera spp depth).IMG_W : Int) : ℚ) = ((2 : Int) : ℚ) := rfl
  rw [e, double_to_int_intCast 2 (by norm_num) (by norm_num)] at hn
  cases hn
  exact ⟨c0, h0, hW, by rw [hH]; rfl, hs, hd⟩

theorem double_to_int_of_nonneg (x : F) (h0 : 0 ≤ x) (hhi : x < 2147483648) :
    double_to_int x = some (Int.floor x) := by
  have hlo : -2147483649 < x := lt_of_lt_of_le (by norm_num) h0
  unfold double_to_int
  rw [if_pos ⟨hlo, hhi⟩, if_pos h0]

end camera_lemmas

/-! ## Lemmas over the reals: the basis, the constant `pi`, the lens -/

section real_lemmas

variable {S : Type}

theorem vec3.smul_ne_zero (t : ℝ) (a : vec3 ℝ) (ht : t ≠ 0) (ha : a ≠ ⟨0, 0, 0⟩) :
    t * a ≠ ⟨0, 0, 0⟩ := by
  intro h
  have h1 : vec3.length_squared (t * a) = 0 := by
    rw [h]
    simp [vec3.length_squared]
  rw [vec3.length_squared_smul] at h1
  rcases mul_eq_zero.mp h1 with h2 | h2
  · exact ht (mul_self_eq_zero.mp h2)
  · exact ha (vec3.length_squared_eq_zero a h2)

theorem vec3.sub_ne_zero (a b : vec3 ℝ) (h : a ≠ b) : a - b ≠ ⟨0, 0, 0⟩ := by
  intro h0
  apply h
  rw [vec3.sub_def, vec3.ext_iff] at h0
  simp only at h0
  rw [vec3.ext_iff]
  exact ⟨by linarith [h0.1], by linarith [h0.2.1], by linarith [h0.2.2]⟩

theorem pi_lt_real_pi : (pi : ℝ) < Real.pi := by
  have h := Real.pi_gt_d20
  unfold pi
  refine lt_trans ?_ h
  norm_num

theorem pi_pos : (0 : ℝ) < pi := by
  unfold pi
  norm_num

theorem tan_half_angle_nonneg (a : ℝ) (h0 : 0 < a) (h1 : a < 180) :
    0 ≤ Real.tan (degrees_to_radians a / 2) := by
  have hp := pi_lt_real_pi
  have hpp := pi_pos
  have e : degrees_to_radians a / 2 = a * pi / 360 := by
    unfold degrees_to_radians
    norm_num
    ring
  rw [e]
  apply Real.tan_nonneg_of_nonneg_of_le_pi_div_two
  · positivity
  · have : a * pi < 180 * Real.pi := by nlinarith
    linarith

theorem degrees_half (a : ℝ) : degrees_to_radians (a / 2) = degrees_to_radians a / 2 := by
  unfold degrees_to_radians
  ring

theorem length_le_of_sq_le (a : vec3 ℝ) (R : ℝ) (hR : 0 ≤ R)
    (h : vec3.length_squared a ≤ R * R) : vec3.length Real.sqrt a ≤ R := by
  unfold vec3.length
  calc Real.sqrt (vec3.length_squared a) ≤ Real.sqrt (R * R) := Real.sqrt_le_sqrt h
    _ = R := Real.sqrt_mul_self hR

theorem initialize_basis (tan : ℝ → ℝ) (cam c0 : camera ℝ)
    (hinit : camera.initialize Real.sqrt tan cam = some c0)
    (hfrom : cam.lookFrom ≠ cam.lookAt)
    (hup : vec3.cross cam.vup (cam.lookFrom - cam.lookAt) ≠ ⟨0, 0, 0⟩) :
    vec3.length_squared c0.u = 1 ∧ vec3.length_squared c0.v = 1 ∧
    vec3.length_squared c0.w = 1 ∧ vec3.dot c0.u c0.v = 0 ∧ vec3.dot c0.u c0.w = 0 ∧
    vec3.dot c0.v c0.w = 0 := by
  obtain ⟨-, -, -, -, -, -, -, hw, hu, hv, -⟩ := initialize_fields Real.sqrt tan cam c0 hinit
  have hd : cam.lookFrom - cam.lookAt ≠ ⟨0, 0, 0⟩ := vec3.sub_ne_zero _ _ hfrom
  have hL := vec3.length_pos _ hd
  have hww : vec3.length_squared c0.w = 1 := by
    rw [hw]
    exact vec3.length_squared_unit_vector _ hd
  have hc : vec3.cross cam.vup c0.w ≠ ⟨0, 0, 0⟩ := by
    rw [hw, vec3.unit_vector_def, vec3.cross_smul_right]
    exact vec3.smul_ne_zero _ _ (one_div_ne_zero (ne_of_gt hL)) hup
  have huu : vec3.length_squared c0.u = 1 := by
    rw [hu]
    exact vec3.length_squared_unit_vector _ hc
  have huw : vec3.dot c0.u c0.w = 0 := by
    rw [hu, vec3.unit_vector_def, vec3.dot_smul_left, vec3.dot_cross_self_right, mul_zero]
  have hvv : vec3.length_squared c0.v = 1 := by
    rw [hv, vec3.length_squared_cross, hww, huu, vec3.dot_comm, huw]
    norm_num
  refine ⟨huu, hvv, hww, ?_, huw, ?_⟩
  · rw [hv, vec3.dot_comm, vec3.dot_cross_self_right]
  · rw [hv, vec3.dot_cross_self_left]

theorem lens_offset_bound (c u v w p : vec3 ℝ) (R : ℝ) (hR : 0 ≤ R)
    (huu : vec3.length_squared u = 1) (hvv : vec3.length_squared v = 1)
    (huv : vec3.dot u v = 0) (huw : vec3.dot u w = 0) (hvw : vec3.dot v w = 0)
    (hp : p.x * p.x + p.y * p.y ≤ 1) :
    vec3.dot ((c + (p.x * (u * R)) + (p.y * (v * R))) - c) w = 0 ∧
    (c + (p.x * (u * R)) + (p.y * (v * R))) - c = ((p.x * R) * u) + ((p.y * R) * v) ∧
    vec3.length Real.sqrt ((c + (p.x * (u * R)) + (p.y * (v * R))) - c) ≤ R := by
  simp only [vec3.length_squared, vec3.dot] at huu hvv huv huw hvw
  refine ⟨?_, ?_, length_le_of_sq_le _ R hR ?_⟩
  · simp only [vec3.add_def, vec3.sub_def, vec3.smul_def, vec3.mul_scalar_def, vec3.dot]
    linear_combination (R * p.x) * huw + (R * p.y) * hvw
  · simp only [vec3.add_def, vec3.sub_def, vec3.smul_def, vec3.mul_scalar_def, vec3.mk.injEq]
    refine ⟨?_, ?_, ?_⟩ <;> ring
  · have e : vec3.length_squared ((c + (p.x * (u * R)) + (p.y * (v * R))) - c)
        = R * R * (p.x * p.x + p.y * p.y) := by
      simp only [vec3.add_def, vec3.sub_def, vec3.smul_def, vec3.mul_scalar_def,
        vec3.length_squared]
      linear_combination (R * R * p.x * p.x) * huu + (R * R * p.y * p.y) * hvv
        + (2 * R * R * p.x * p.y) * huv
    rw [e]
    calc R * R * (p.x * p.x + p.y * p.y) ≤ R * R * 1 :=
          mul_le_mul_of_nonneg_left hp (mul_self_nonneg R)
      _ = R * R := mul_one _

theorem round_to_double_seven_fourths : round_to_double ((7 : ℚ) / 4) = 7 / 4 := by
  apply round_to_double_of_exact ((7 : ℚ) / 4) 0 7881299347898368 (by norm_num)
  · rw [abs_of_pos (by norm_num)]
    norm_num
  · rw [abs_of_pos (by norm_num)]
    norm_num
  · norm_num

theorem round_to_double_wide_quotient :
    round_to_double ((800 : ℚ) / (7205759403792794 / 4503599627370496)) = 500 := by
  rw [round_to_double_up ((800 : ℚ) / (7205759403792794 / 4503599627370496)) 8
    8796093022207999 (by norm_num)]
  · norm_num
  · rw [abs_of_pos (by norm_num)]
    norm_num
  · rw [abs_of_pos (by norm_num)]
    norm_num
  · norm_num
  · norm_num

theorem floor_wide_quotient :
    Int.floor ((800 : ℚ) / (7205759403792794 / 4503599627370496)) = 499 := by
  rw [Int.floor_eq_iff]
  norm_num

theorem floor_seven_fourths : Int.floor ((7 : ℚ) / 4) = 1 := by
  rw [Int.floor_eq_iff]
  norm_num

theorem round_seven_fourths : round ((7 : ℚ) / 4) = 2 := by
  rw [round_eq, Int.floor_eq_iff]
  norm_num

end real_lemmas

/-! ## The integrator: claims C1, C2 and C4 -/

section integrator_claims

variable {F M S : Type} [LinearOrderedField F]

/-- C1: when the scene reports a hit for `r` in `[0.001, ∞)` and the budget is at least 1,
`ray_color` is the component-wise product of the attenuation with `ray_color` of the
scattered ray at budget `d - 1` if the material scatters, and black if it absorbs. -/
theorem ray_color_hit (sqrt : F → F) (world : hittable F M S) (r : ray F) (d : Int)
    (s s1 : S) (rec : hit_record F M) (hd : 1 ≤ d)
    (hhit : world.hit r ⟨0.001, ⊤⟩ s = (some rec, s1)) :
    (∀ (A : color F) (sc : ray F) (s2 : S),
      world.scatter rec.mat r rec s1 = (some (A, sc), s2) →
      ray_color sqrt r d world s =
        (⟨A.x * (ray_color sqrt sc (d - 1) world s2).1.x,
          A.y * (ray_color sqrt sc (d - 1) world s2).1.y,
          A.z * (ray_color sqrt sc (d - 1) world s2).1.z⟩,
         (ray_color sqrt sc (d - 1) world s2).2)) ∧
    (∀ s2 : S, world.scatter rec.mat r rec s1 = (none, s2) →
      ray_color sqrt r d world s = (⟨0, 0, 0⟩, s2)) := by
  have hpos : 0 < d := by omega
  refine ⟨fun A sc s2 hsc => ?_, fun s2 habs => ?_⟩
  · rw [ray_color_of_scatter sqrt r d world s s1 s2 rec A sc hpos hhit hsc]
    rfl
  · exact ray_color_of_absorb sqrt r d world s s1 s2 rec hpos hhit habs

theorem ray_color_hit_witness :
    ray_color rat_sqrt up_ray 2 first_hit_world 0 =
      (⟨1 / 2 * (ray_color rat_sqrt ⟨⟨0, 0, 0⟩, ⟨0, 1, 0⟩⟩ (2 - 1) first_hit_world 2).1.x,
        1 / 2 * (ray_color rat_sqrt ⟨⟨0, 0, 0⟩, ⟨0, 1, 0⟩⟩ (2 - 1) first_hit_world 2).1.y,
        1 / 2 * (ray_color rat_sqrt ⟨⟨0, 0, 0⟩, ⟨0, 1, 0⟩⟩ (2 - 1) first_hit_world 2).1.z⟩,
       (ray_color rat_sqrt ⟨⟨0, 0, 0⟩, ⟨0, 1, 0⟩⟩ (2 - 1) first_hit_world 2).2) ∧
    ray_color rat_sqrt up_ray 1 black_world () = (⟨0, 0, 0⟩, ()) :=
  ⟨(ray_color_hit rat_sqrt first_hit_world up_ray 2 0 1
      ⟨⟨0, 0, 0⟩, ⟨0, 1, 0⟩, true, 1⟩ (by decide) rfl).1
      ⟨1 / 2, 1 / 2, 1 / 2⟩ ⟨⟨0, 0, 0⟩, ⟨0, 1, 0⟩⟩ 2 rfl,
   (ray_color_hit rat_sqrt black_world up_ray 1 () ()
      ⟨⟨0, 0, 0⟩, ⟨0, 1, 0⟩, (), 1⟩ (by decide) rfl).2 () rfl⟩

/-- C2: when the scene reports no hit for `r` in `[0.001, ∞)` and the budget is at least 1,
`ray_color` is `(1-a)*(1,1,1) + a*(0.5,0.7,1.0)` with `a = 0.5*(y + 1.0)`, `y` the y
component of the direction divided by the length of the direction; at `a = 0` this is white
and at `a = 1` it is the sky blue `(0.5,0.7,1.0)`. -/
theorem ray_color_background (sqrt : F → F) (world : hittable F M S) (r : ray F) (d : Int)
    (s s1 : S) (hd : 1 ≤ d) (hmiss : world.hit r ⟨0.001, ⊤⟩ s = (none, s1)) :
    ray_color sqrt r d world s =
      (((1 - 0.5 * (r.direction.y / vec3.length sqrt r.direction + 1.0)) *
          (⟨1, 1, 1⟩ : color F)) +
        ((0.5 * (r.direction.y / vec3.length sqrt r.direction + 1.0)) *
          (⟨0.5, 0.7, 1.0⟩ : color F)), s1) ∧
    (0.5 * (r.direction.y / vec3.length sqrt r.direction + 1.0) = 0 →
      ray_color sqrt r d world s = (⟨1, 1, 1⟩, s1)) ∧
    (0.5 * (r.direction.y / vec3.length sqrt r.direction + 1.0) = 1 →
      ray_color sqrt r d world s = (⟨0.5, 0.7, 1.0⟩, s1)) := by
  have hpos : 0 < d := by omega
  have h := ray_color_of_miss sqrt r d world s s1 hpos hmiss
  rw [unit_vector_y] at h
  have e1 : (1.0 : F) = 1 := by norm_num
  refine ⟨?_, fun ha => ?_, fun ha => ?_⟩
  · rw [h, e1]
  · rw [e1] at ha
    rw [h, e1, ha, vec3.smul_def, vec3.smul_def, vec3.add_def]
    norm_num
  · rw [e1] at ha
    rw [h, e1, ha, vec3.smul_def, vec3.smul_def, vec3.add_def]
    norm_num

theorem ray_color_background_witness :
    ray_color rat_sqrt up_ray 1 empty_world () = (⟨0.5, 0.7, 1.0⟩, ()) ∧
    ray_color rat_sqrt ⟨⟨0, 0, 0⟩, ⟨0, -1, 0⟩⟩ 7 empty_world () = (⟨1, 1, 1⟩, ()) :=
  ⟨(ray_color_background rat_sqrt empty_world up_ray 1 () () (by decide) rfl).2.2
      (by norm_num [up_ray, vec3.length, vec3.length_squared, rat_sqrt_one]),
   (ray_color_background rat_sqrt empty_world ⟨⟨0, 0, 0⟩, ⟨0, -1, 0⟩⟩ 7 () () (by decide)
      rfl).2.1
      (by norm_num [vec3.length, vec3.length_squared, rat_sqrt_one])⟩

/-- C4: `ray_color` is total (it returns for every integer budget), the instrumented copy
computes the same result, and the number of `world.hit` queries and the recursion depth of
one call are at most `max d 0`; the bound is reached in a scene in which every ray hits and
every material scatters. -/
theorem ray_color_terminates (sqrt : F → F) (world : hittable F M S) (r : ray F) (d : Int)
    (s : S) :
    (∃ res : color F × S, ray_color sqrt r d world s = res) ∧
    (ray_color_traced sqrt r d world s).1 = ray_color sqrt r d world s ∧
    (ray_color_traced sqrt r d world s).2.1 ≤ (max d 0).toNat ∧
    (ray_color_traced sqrt r d world s).2.2 ≤ (max d 0).toNat ∧
    ((∀ r1 s1, ∃ rec s2, world.hit r1 ⟨0.001, ⊤⟩ s1 = (some rec, s2)) →
      (∀ m r1 rec s1, ∃ A sc s2, world.scatter m r1 rec s1 = (some (A, sc), s2)) →
      (ray_color_traced sqrt r d world s).2.1 = (max d 0).toNat ∧
      (ray_color_traced sqrt r d world s).2.2 = (max d 0).toNat) := by
  have hm : (max d 0).toNat = d.toNat := by
    rcases le_total d 0 with h | h
    · rw [max_eq_right h]; omega
    · rw [max_eq_left h]
  rw [hm]
  refine ⟨⟨_, rfl⟩, ray_color_traced_fst sqrt world d.toNat d r s rfl,
    (ray_color_traced_le sqrt world d.toNat d r s rfl).1,
    (ray_color_traced_le sqrt world d.toNat d r s rfl).2, fun hhit hsc => ?_⟩
  exact ray_color_traced_eq sqrt world hhit hsc d.toNat d r s rfl

theorem ray_color_terminates_witness :
    (ray_color_traced rat_sqrt up_ray 5 mirror_world ()).2.1 = (max (5 : Int) 0).toNat ∧
    (ray_color_traced rat_sqrt up_ray 5 mirror_world ()).2.2 = (max (5 : Int) 0).toNat :=
  (ray_color_terminates rat_sqrt mirror_world up_ray 5 ()).2.2.2.2
    (fun r1 s1 => ⟨⟨r1.origin, ⟨0, 1, 0⟩, (), 1⟩, s1, rfl⟩)
    (fun _ r1 rec s1 => ⟨⟨1 / 2, 1 / 2, 1 / 2⟩, ⟨rec.p, r1.direction⟩, s1, rfl⟩)

end integrator_claims

/-! ## The render loop: claims C3, C5 and C6 -/

section render_claims

variable {F M S : Type} [LinearOrderedField F] [FloorRing F]

/-- C3: with a budget `d ≤ 0`, `ray_color` returns black, leaves the state as it was and
makes no `world.hit` query, whatever the ray and the scene; hence with `max_depth = 0` and
`samples_per_pixel > 0` every colour that `render` hands to the output is black. -/
theorem max_depth_zero_black (sqrt tan : F → F) (rs : random_source F S)
    (world : hittable F M S) (r : ray F) (d : Int) (s : S) (cam c0 : camera F)
    (hd : d ≤ 0) (hmd : cam.max_depth = 0) (hspp : 0 < cam.samples_per_pixel)
    (hinit : camera.initialize sqrt tan cam = some c0) :
    (ray_color sqrt r d world s = (⟨0, 0, 0⟩, s) ∧
      (ray_color_traced sqrt r d world s).2.1 = 0) ∧
    ∃ out, render sqrt tan rs cam world s = some out ∧
      out.1.length = c0.IMG_W.toNat * c0.IMG_H.toNat ∧
      c0.pixel_samples_scale * (cam.samples_per_pixel : F) = 1 ∧
      ∀ c ∈ out.1, c = ⟨0, 0, 0⟩ := by
  refine ⟨⟨ray_color_of_nonpos sqrt r d world s hd, ?_⟩, _,
    render_of_initialize sqrt tan rs cam c0 world s hinit, ?_, ?_, ?_⟩
  · rw [ray_color_traced_of_nonpos sqrt r d world s hd]
  · rw [flat_pixels_length, Nat.mul_comm]
  · have hne : (cam.samples_per_pixel : F) ≠ 0 := by
      have : (0 : F) < (cam.samples_per_pixel : F) := by exact_mod_cast hspp
      exact ne_of_gt this
    rw [(initialize_fields sqrt tan cam c0 hinit).2.2.2.2.2.1]
    field_simp
    norm_num
  · have hmd0 : c0.max_depth ≤ 0 := by
      rw [(initialize_fields sqrt tan cam c0 hinit).2.2.1, hmd]
    exact flat_pixels_forall _ _ _ (fun c => c = ⟨0, 0, 0⟩)
      (fun i j s1 => emitted_pixel_black sqrt rs c0 world i j s1 hmd0) _

theorem max_depth_zero_black_witness :
    ∃ out, render rat_sqrt rat_tan center_source (small_camera 3 0) mirror_world () = some out ∧
      out.1.length = 4 ∧ ∀ c ∈ out.1, c = ⟨0, 0, 0⟩ := by
  obtain ⟨c0, h0, hW, hH, -, -⟩ := small_camera_initialize 3 0
  obtain ⟨-, out, h1, h2, h3⟩ := max_depth_zero_black rat_sqrt rat_tan center_source
    mirror_world up_ray 0 () (small_camera 3 0) c0 (le_refl _) rfl (by decide) h0
  rw [hW, hH] at h2
  exact ⟨out, h1, h2, h3.2⟩

/-- C5: for `samples_per_pixel = n > 0`, the colour handed to the output for a pixel is
`1/n` times the sum of the colours `ray_color(get_ray(i, j), max_depth, world)` of its `n`
samples, each counted once, the accumulator starting at black; this holds for the pixel
loop body in every state and for each colour in the output of `render`. -/
theorem render_pixel_mean (sqrt tan : F → F) (rs : random_source F S)
    (world : hittable F M S) (s : S) (cam c0 : camera F)
    (hn : 0 < cam.samples_per_pixel)
    (hinit : camera.initialize sqrt tan cam = some c0) :
    (∀ (i j : Int) (s1 : S), ∃ samples : List (color F),
      samples = sample_colors sqrt rs c0 world i j cam.samples_per_pixel.toNat s1 ∧
      (samples.length : Int) = cam.samples_per_pixel ∧
      (emitted_pixel sqrt rs c0 world i j s1).1 =
        ⟨1 / (cam.samples_per_pixel : F) * (samples.map vec3.x).sum,
         1 / (cam.samples_per_pixel : F) * (samples.map vec3.y).sum,
         1 / (cam.samples_per_pixel : F) * (samples.map vec3.z).sum⟩) ∧
    ∃ out, render sqrt tan rs cam world s = some out ∧
      ∀ k : Nat, k < c0.IMG_W.toNat * c0.IMG_H.toNat →
        ∃ samples : List (color F),
          samples = sample_colors sqrt rs c0 world
            ((k % c0.IMG_W.toNat : Nat) : Int) ((k / c0.IMG_W.toNat : Nat) : Int)
            cam.samples_per_pixel.toNat
            (flat_pixels c0.IMG_W.toNat (emitted_pixel sqrt rs c0 world) s k).2 ∧
          (samples.length : Int) = cam.samples_per_pixel ∧
          out.1[k]? = some
            ⟨1 / (cam.samples_per_pixel : F) * (samples.map vec3.x).sum,
             1 / (cam.samples_per_pixel : F) * (samples.map vec3.y).sum,
             1 / (cam.samples_per_pixel : F) * (samples.map vec3.z).sum⟩ := by
  obtain ⟨-, hspp, -, -, -, hscale, -⟩ := initialize_fields sqrt tan cam c0 hinit
  have e1 : (1.0 : F) = 1 := by norm_num
  have hpix : ∀ (i j : Int) (s1 : S), ∃ samples : List (color F),
      samples = sample_colors sqrt rs c0 world i j cam.samples_per_pixel.toNat s1 ∧
      (samples.length : Int) = cam.samples_per_pixel ∧
      (emitted_pixel sqrt rs c0 world i j s1).1 =
        ⟨1 / (cam.samples_per_pixel : F) * (samples.map vec3.x).sum,
         1 / (cam.samples_per_pixel : F) * (samples.map vec3.y).sum,
         1 / (cam.samples_per_pixel : F) * (samples.map vec3.z).sum⟩ := by
    intro i j s1
    refine ⟨_, rfl, ?_, ?_⟩
    · rw [sample_colors_length]
      omega
    · unfold emitted_pixel
      simp only
      rw [pixel_color_sum, vec3.smul_def, hscale, hspp, e1]
  refine ⟨hpix, _, render_of_initialize sqrt tan rs cam c0 world s hinit, fun k hk => ?_⟩
  obtain ⟨samples, h1, h2, h3⟩ := hpix ((k % c0.IMG_W.toNat : Nat) : Int)
    ((k / c0.IMG_W.toNat : Nat) : Int)
    (flat_pixels c0.IMG_W.toNat (emitted_pixel sqrt rs c0 world) s k).2
  refine ⟨samples, h1, h2, ?_⟩
  rw [flat_pixels_get _ _ _ _ k (by rw [Nat.mul_comm]; exact hk), h3]

theorem render_pixel_mean_witness :
    ∃ c0 out, camera.initialize rat_sqrt rat_tan (small_camera 2 1) = some c0 ∧
      render rat_sqrt rat_tan center_source (small_camera 2 1) empty_world () = some out ∧
      ∀ k : Nat, k < 4 →
        ∃ samples : List (color ℚ),
          samples = sample_colors rat_sqrt center_source c0 empty_world
            ((k % 2 : Nat) : Int) ((k / 2 : Nat) : Int) 2
            (flat_pixels 2 (emitted_pixel rat_sqrt center_source c0 empty_world) () k).2 ∧
          (samples.length : Int) = 2 ∧
          out.1[k]? = some
            ⟨1 / ((2 : Int) : ℚ) * (samples.map vec3.x).sum,
             1 / ((2 : Int) : ℚ) * (samples.map vec3.y).sum,
             1 / ((2 : Int) : ℚ) * (samples.map vec3.z).sum⟩ := by
  obtain ⟨c0, h0, hW, hH, -, -⟩ := small_camera_initialize 2 1
  obtain ⟨-, out, h1, h2⟩ := render_pixel_mean rat_sqrt rat_tan center_source empty_world ()
    (small_camera 2 1) c0 (by decide) h0
  rw [hW, hH] at h2
  exact ⟨c0, out, h0, h1, h2⟩

/-- C6: `render` emits exactly `IMG_W * IMG_H` colours, and the `k`-th of them (from 0) is
the colour computed for column `k mod IMG_W` of row `k div IMG_W`, in the state left by the
`k` pixels before it; the same holds for the two loops around any other computation of the
pixel colour, so the order does not depend on how the samples of a pixel are run. -/
theorem render_scanline_order (sqrt tan : F → F) (rs : random_source F S)
    (world : hittable F M S) (s : S) (cam c0 : camera F)
    (hinit : camera.initialize sqrt tan cam = some c0) :
    (∃ out, render sqrt tan rs cam world s = some out ∧
      out = scanlines c0.IMG_W c0.IMG_H (emitted_pixel sqrt rs c0 world) s) ∧
    c0.IMG_W = cam.IMG_W ∧ 1 ≤ c0.IMG_H ∧
    ∀ pixel : Int → Int → S → color F × S,
      (scanlines c0.IMG_W c0.IMG_H pixel s).1.length = c0.IMG_W.toNat * c0.IMG_H.toNat ∧
      (0 ≤ c0.IMG_W →
        ((scanlines c0.IMG_W c0.IMG_H pixel s).1.length : Int) = c0.IMG_W * c0.IMG_H) ∧
      ∀ k : Nat, k < c0.IMG_W.toNat * c0.IMG_H.toNat →
        k % c0.IMG_W.toNat < c0.IMG_W.toNat ∧ k / c0.IMG_W.toNat < c0.IMG_H.toNat ∧
        (scanlines c0.IMG_W c0.IMG_H pixel s).1[k]? =
          some (pixel ((k % c0.IMG_W.toNat : Nat) : Int) ((k / c0.IMG_W.toNat : Nat) : Int)
            (flat_pixels c0.IMG_W.toNat pixel s k).2).1 := by
  obtain ⟨-, n, -, hH⟩ := initialize_height sqrt tan cam c0 hinit
  have hH1 : 1 ≤ c0.IMG_H := by
    rw [hH]
    split <;> omega
  refine ⟨⟨_, ?_, rfl⟩, (initialize_fields sqrt tan cam c0 hinit).1, hH1, fun pixel => ?_⟩
  · unfold render
    rw [hinit]
  · have hlen : (scanlines c0.IMG_W c0.IMG_H pixel s).1.length
        = c0.IMG_W.toNat * c0.IMG_H.toNat := by
      rw [scanlines_eq_flat, flat_pixels_length, Nat.mul_comm]
    refine ⟨hlen, fun hW => ?_, fun k hk => ?_⟩
    · rw [hlen, Nat.cast_mul, Int.toNat_of_nonneg hW, Int.toNat_of_nonneg (by omega)]
    · have hWpos : 0 < c0.IMG_W.toNat := by
        rcases Nat.eq_zero_or_pos c0.IMG_W.toNat with h | h
        · rw [h, Nat.zero_mul] at hk
          omega
        · exact h
      refine ⟨Nat.mod_lt _ hWpos, Nat.div_lt_of_lt_mul hk, ?_⟩
      rw [scanlines_eq_flat, flat_pixels_get _ _ _ _ k (by rw [Nat.mul_comm]; exact hk)]

theorem render_scanline_order_witness :
    ∃ c0 out, camera.initialize rat_sqrt rat_tan (small_camera 1 1) = some c0 ∧
      render rat_sqrt rat_tan center_source (small_camera 1 1) empty_world () = some out ∧
      out.1.length = 4 ∧
      ∀ k : Nat, k < 4 →
        out.1[k]? =
          some (emitted_pixel rat_sqrt center_source c0 empty_world
            ((k % 2 : Nat) : Int) ((k / 2 : Nat) : Int)
            (flat_pixels 2 (emitted_pixel rat_sqrt center_source c0 empty_world) () k).2).1 := by
  obtain ⟨c0, h0, hW, hH, -, -⟩ := small_camera_initialize 1 1
  obtain ⟨⟨out, h1, h2⟩, -, -, h3⟩ := render_scanline_order rat_sqrt rat_tan center_source
    empty_world () (small_camera 1 1) c0 h0
  obtain ⟨h4, -, h5⟩ := h3 (emitted_pixel rat_sqrt center_source c0 empty_world)
  rw [← h2] at h4 h5
  rw [hW, hH] at h4 h5
  exact ⟨c0, out, h0, h1, h4, fun k hk => (h5 k hk).2.2⟩

end render_claims

/-! ## The camera geometry: claims C7, C8 and C9 -/

section geometry_claims

variable {F M S : Type} [LinearOrderedField F] [FloorRing F]

/-- C7: for `lookFrom ≠ lookAt` and `vup` not parallel to `lookFrom - lookAt` (their cross
product is not zero), the vectors `u`, `v`, `w` set by `initialize` are pairwise orthogonal
and of length 1, `v` being the plain cross product `cross(w, u)`; `w` is the direction from
`lookAt` to `lookFrom` scaled to length 1, and `cross(u, v) = w` (right-handed). -/
theorem initialize_orthonormal_basis (tan : ℝ → ℝ) (cam c0 : camera ℝ)
    (hinit : camera.initialize Real.sqrt tan cam = some c0)
    (hfrom : cam.lookFrom ≠ cam.lookAt)
    (hup : vec3.cross cam.vup (cam.lookFrom - cam.lookAt) ≠ ⟨0, 0, 0⟩) :
    vec3.dot c0.u c0.v = 0 ∧ vec3.dot c0.u c0.w = 0 ∧ vec3.dot c0.v c0.w = 0 ∧
    vec3.length Real.sqrt c0.u = 1 ∧ vec3.length Real.sqrt c0.v = 1 ∧
    vec3.length Real.sqrt c0.w = 1 ∧
    c0.v = vec3.cross c0.w c0.u ∧
    (0 < vec3.length Real.sqrt (cam.lookFrom - cam.lookAt) ∧
      vec3.length Real.sqrt (cam.lookFrom - cam.lookAt) * c0.w = cam.lookFrom - cam.lookAt) ∧
    vec3.cross c0.u c0.v = c0.w := by
  obtain ⟨-, -, -, -, -, -, -, hw, -, hv, -⟩ := initialize_fields Real.sqrt tan cam c0 hinit
  obtain ⟨huu, hvv, hww, huv, huw, hvw⟩ := initialize_basis tan cam c0 hinit hfrom hup
  have hL := vec3.length_pos _ (vec3.sub_ne_zero _ _ hfrom)
  refine ⟨huv, huw, hvw, vec3.length_eq_one _ huu, vec3.length_eq_one _ hvv,
    vec3.length_eq_one _ hww, hv, ⟨hL, ?_⟩, ?_⟩
  · rw [hw, vec3.unit_vector_def, vec3.smul_def, vec3.smul_def, vec3.ext_iff]
    refine ⟨?_, ?_, ?_⟩ <;> field_simp
  · rw [hv, vec3.cross_cross_self, vec3.dot_self, huu, huw, vec3.ext_iff]
    refine ⟨?_, ?_, ?_⟩ <;> simp

theorem initialize_orthonormal_basis_witness :
    ∃ c0 : camera ℝ, camera.initialize Real.sqrt Real.tan {} = some c0 ∧
      vec3.dot c0.u c0.v = 0 ∧ vec3.dot c0.u c0.w = 0 ∧ vec3.dot c0.v c0.w = 0 ∧
      vec3.length Real.sqrt c0.u = 1 ∧ vec3.length Real.sqrt c0.v = 1 ∧
      vec3.length Real.sqrt c0.w = 1 ∧ vec3.cross c0.u c0.v = c0.w := by
  obtain ⟨c0, h0⟩ := initialize_isSome_unit_aspect Real.sqrt Real.tan ({} : camera ℝ)
    (by norm_num) (by norm_num) (by norm_num)
  have h := initialize_orthonormal_basis Real.tan {} c0 h0
    (by simp [vec3.ext_iff])
    (by simp [vec3.ext_iff, vec3.cross, vec3.sub_def])
  exact ⟨c0, h0, h.1, h.2.1, h.2.2.1, h.2.2.2.1, h.2.2.2.2.1, h.2.2.2.2.2.1, h.2.2.2.2.2.2.2.2⟩

/-- C8 (amended): for `IMG_W ≥ 1`, `aspect_ratio > 0` and a `double` quotient
`q = IMG_W / aspect_ratio` (the exact quotient rounded to the nearest `double`) below `2^31`,
so that its conversion to `int` is defined, `initialize` sets the image height to
`max(1, floor(q))`: the quotient is truncated, not rounded to the nearest integer. -/
theorem image_height_truncated (sqrt tan : F → F) (cam : camera F) (hW : 1 ≤ cam.IMG_W)
    (ha : 0 < cam.aspect_ratio)
    (hfit : round_to_double ((cam.IMG_W : F) / cam.aspect_ratio) < 2147483648) :
    ∃ c0, camera.initialize sqrt tan cam = some c0 ∧
      c0.IMG_H = max 1 (Int.floor (round_to_double ((cam.IMG_W : F) / cam.aspect_ratio))) := by
  have hWF : (0 : F) ≤ (cam.IMG_W : F) := by
    have : (0 : Int) ≤ cam.IMG_W := by omega
    exact_mod_cast this
  have hq : 0 ≤ round_to_double ((cam.IMG_W : F) / cam.aspect_ratio) :=
    round_to_double_nonneg _ (div_nonneg hWF (le_of_lt ha))
  obtain ⟨c0, h0⟩ := initialize_isSome sqrt tan cam (ne_of_gt ha)
    (lt_of_lt_of_le (by norm_num) hq) hfit
  obtain ⟨-, n, hn, hH⟩ := initialize_height sqrt tan cam c0 h0
  rw [double_to_int_of_nonneg _ hq hfit] at hn
  cases hn
  refine ⟨c0, h0, ?_⟩
  rw [hH]
  split
  · rw [max_eq_left (by omega)]
  · rw [max_eq_right (by omega)]

theorem image_height_truncated_witness :
    ∃ c0 : camera ℚ,
      camera.initialize rat_sqrt rat_tan
        { IMG_W := 800, aspect_ratio := 7205759403792794 / 4503599627370496 } = some c0 ∧
      c0.IMG_H = 500 ∧
      Int.floor (((800 : Int) : ℚ) / (7205759403792794 / 4503599627370496)) = 499 := by
  have e : (((800 : Int) : ℚ) / (7205759403792794 / 4503599627370496)) =
      (800 : ℚ) / (7205759403792794 / 4503599627370496) := by norm_num
  obtain ⟨c0, h0, hH⟩ := image_height_truncated rat_sqrt rat_tan
    { IMG_W := 800, aspect_ratio := 7205759403792794 / 4503599627370496 }
    (by decide) (by norm_num)
    (by
      show round_to_double (((800 : Int) : ℚ) / (7205759403792794 / 4503599627370496)) < _
      rw [e, round_to_double_wide_quotient]
      norm_num)
  refine ⟨c0, h0, ?_, ?_⟩
  · rw [hH]
    show max 1 (Int.floor (round_to_double
      (((800 : Int) : ℚ) / (7205759403792794 / 4503599627370496)))) = 500
    rw [e, round_to_double_wide_quotient]
    have : Int.floor (500 : ℚ) = 500 := Int.floor_intCast 500
    rw [this]
    rfl
  · rw [e, floor_wide_quotient]

/-- C8 fails as stated: for `IMG_W = 7` and `aspect_ratio = 4` the quotient is 1.75, which
is a `double`, and `initialize` sets the image height to 1, whereas `max(1, round(1.75))`
is 2. -/
theorem image_height_not_rounded :
    Option.map camera.IMG_H
      ( camera.initialize rat_sqrt rat_tan { IMG_W := 7, aspect_ratio := 4 }) = some 1 ∧
    round_to_double (((7 : Int) : ℚ) / 4) = 7 / 4 ∧
    max 1 (round (((7 : Int) : ℚ) / 4)) = 2 := by
  have e : (((7 : Int) : ℚ) / 4) = (7 : ℚ) / 4 := by norm_num
  have hr : round_to_double (((7 : Int) : ℚ) / 4) = 7 / 4 := by
    rw [e, round_to_double_seven_fourths]
  obtain ⟨c0, h0⟩ := initialize_isSome rat_sqrt rat_tan
    ({ IMG_W := 7, aspect_ratio := 4 } : camera ℚ) (by norm_num)
    (by
      show _ < round_to_double (((7 : Int) : ℚ) / 4)
      rw [hr]
      norm_num)
    (by
      show round_to_double (((7 : Int) : ℚ) / 4) < _
      rw [hr]
      norm_num)
  obtain ⟨-, n, hn, hH⟩ := initialize_height rat_sqrt rat_tan _ c0 h0
  have hn1 : double_to_int (round_to_double (((7 : Int) : ℚ) / 4)) = some n := hn
  rw [hr, double_to_int_of_nonneg _ (by norm_num) (by norm_num), floor_seven_fourths] at hn1
  cases hn1
  refine ⟨?_, hr, ?_⟩
  · rw [h0, Option.map_some', hH]
    rfl
  · rw [e, round_seven_fourths]
    rfl

/-- C9: with `defocus_angle ≤ 0` the origin of `get_ray(i, j)` is the camera centre, which is
`lookFrom`; with `defocus_angle > 0` it is `centre + p0*defocus_disk_u + p1*defocus_disk_v`
for the point `p` drawn by `random_in_unit_disk`, and then, for a non-degenerate view,
`defocus_angle < 180`, `focus_dist > 0` and `p` in the unit disk, the origin lies in the
plane through the centre spanned by `u` and `v` (its offset is a combination of `u` and `v`
and is orthogonal to `w`), at distance at most
`focus_dist * tan(degrees_to_radians(defocus_angle) / 2)` from the centre. -/
theorem get_ray_origin (rs : random_source ℝ S) (cam c0 : camera ℝ) (i j : Int) (s : S)
    (hinit : camera.initialize Real.sqrt Real.tan cam = some c0) :
    (cam.defocus_angle ≤ 0 →
      (get_ray rs c0 i j s).1.origin = c0.center ∧ c0.center = cam.lookFrom) ∧
    (0 < cam.defocus_angle →
      ∃ p : vec3 ℝ, p = (rs.random_in_unit_disk (sample_square rs s).2).1 ∧
        (get_ray rs c0 i j s).1.origin =
          c0.center + (p.x * c0.defocus_disk_u) + (p.y * c0.defocus_disk_v) ∧
        (cam.lookFrom ≠ cam.lookAt →
          vec3.cross cam.vup (cam.lookFrom - cam.lookAt) ≠ ⟨0, 0, 0⟩ →
          cam.defocus_angle < 180 → 0 < cam.focus_dist → p.x * p.x + p.y * p.y ≤ 1 →
          vec3.dot ((get_ray rs c0 i j s).1.origin - c0.center) c0.w = 0 ∧
          (∃ a b : ℝ, (get_ray rs c0 i j s).1.origin - c0.center = (a * c0.u) + (b * c0.v)) ∧
          vec3.length Real.sqrt ((get_ray rs c0 i j s).1.origin - c0.center) ≤
            cam.focus_dist * Real.tan (degrees_to_radians cam.defocus_angle / 2))) := by
  obtain ⟨-, -, -, hang, -, -, hcen, -, -, -, hdu, hdv⟩ :=
    initialize_fields Real.sqrt Real.tan cam c0 hinit
  refine ⟨fun h => ⟨get_ray_origin_of_nonpos rs c0 i j s (by rw [hang]; exact h), hcen⟩,
    fun h => ⟨_, rfl, get_ray_origin_of_pos rs c0 i j s (by rw [hang]; exact h), ?_⟩⟩
  intro hfrom hup h180 hfd hp
  obtain ⟨huu, hvv, -, huv, huw, hvw⟩ := initialize_basis Real.tan cam c0 hinit hfrom hup
  have hR : 0 ≤ cam.focus_dist * Real.tan (degrees_to_radians cam.defocus_angle / 2) :=
    mul_nonneg (le_of_lt hfd) (tan_half_angle_nonneg _ h h180)
  rw [get_ray_origin_of_pos rs c0 i j s (by rw [hang]; exact h), hdu, hdv, degrees_half]
  obtain ⟨h1, h2, h3⟩ := lens_offset_bound c0.center c0.u c0.v c0.w
    (rs.random_in_unit_disk (sample_square rs s).2).1 _ hR huu hvv huv huw hvw hp
  exact ⟨h1, ⟨_, _, h2⟩, h3⟩

theorem get_ray_origin_witness :
    ∃ c0 : camera ℝ,
      camera.initialize Real.sqrt Real.tan { defocus_angle := 10 } = some c0 ∧
      vec3.dot ((get_ray rim_source c0 3 4 ()).1.origin - c0.center) c0.w = 0 ∧
      vec3.length Real.sqrt ((get_ray rim_source c0 3 4 ()).1.origin - c0.center) ≤
        (10 : ℝ) * Real.tan (degrees_to_radians (10 : ℝ) / 2) := by
  obtain ⟨c0, h0⟩ := initialize_isSome_unit_aspect Real.sqrt Real.tan
    ({ defocus_angle := 10 } : camera ℝ) (by norm_num) (by norm_num) (by norm_num)
  obtain ⟨p, hp, -, h⟩ := (get_ray_origin rim_source { defocus_angle := 10 } c0 3 4 () h0).2
    (by norm_num)
  have h1 := h (by simp [vec3.ext_iff]) (by simp [vec3.ext_iff, vec3.cross, vec3.sub_def])
    (by norm_num) (by norm_num) (by rw [hp]; norm_num [rim_source])
  exact ⟨c0, h0, h1.1, h1.2.2⟩

end geometry_claims

/-! ## The pixel footprint: claim C10 -/

section footprint_claims

variable {F S : Type} [LinearOrderedField F]

/-- C10: for draws in `[0, 1)` the jitter of `sample_square` has `x` and `y` in `[-0.5, 0.5)`
and `z = 0`, and the point `origin + direction` targeted by `get_ray(i, j)` is
`firstpixel_loc + (i + ox)*pixel_delta_u + (j + oy)*pixel_delta_v` with `|ox|, |oy| ≤ 0.5`,
that is the centre of pixel `(i, j)` moved by `ox*pixel_delta_u + oy*pixel_delta_v`: a point
of the parallelogram around that centre with edge vectors `pixel_delta_u`, `pixel_delta_v`. -/
theorem get_ray_targets_pixel (rs : random_source F S) (cam : camera F) (i j : Int) (s : S)
    (hdraw : ∀ s1 : S, 0 ≤ (rs.uniform01 s1).1 ∧ (rs.uniform01 s1).1 < 1) :
    ((-0.5 : F) ≤ (sample_square rs s).1.x ∧ (sample_square rs s).1.x < 0.5 ∧
      (-0.5 : F) ≤ (sample_square rs s).1.y ∧ (sample_square rs s).1.y < 0.5 ∧
      (sample_square rs s).1.z = 0) ∧
    ∃ ox oy : F, |ox| ≤ 0.5 ∧ |oy| ≤ 0.5 ∧
      (get_ray rs cam i j s).1.origin + (get_ray rs cam i j s).1.direction =
        cam.firstpixel_loc + (((i : F) + ox) * cam.pixel_delta_u)
          + (((j : F) + oy) * cam.pixel_delta_v) ∧
      (get_ray rs cam i j s).1.origin + (get_ray rs cam i j s).1.direction =
        (cam.firstpixel_loc + ((i : F) * cam.pixel_delta_u) + ((j : F) * cam.pixel_delta_v))
          + (ox * cam.pixel_delta_u) + (oy * cam.pixel_delta_v) := by
  have hx := hdraw s
  have hy := hdraw (random_double rs s).2
  have hjx : (sample_square rs s).1.x = (rs.uniform01 s).1 - 0.5 := rfl
  have hjy : (sample_square rs s).1.y = (rs.uniform01 (random_double rs s).2).1 - 0.5 := rfl
  have hjz : (sample_square rs s).1.z = 0 := rfl
  have h5 : (0.5 : F) = 1 / 2 := by norm_num
  refine ⟨⟨?_, ?_, ?_, ?_, hjz⟩, (sample_square rs s).1.x, (sample_square rs s).1.y,
    ?_, ?_, get_ray_target rs cam i j s, ?_⟩
  · rw [hjx, h5]; linarith [hx.1]
  · rw [hjx, h5]; linarith [hx.2]
  · rw [hjy, h5]; linarith [hy.1]
  · rw [hjy, h5]; linarith [hy.2]
  · rw [hjx, h5, abs_le]
    constructor <;> linarith [hx.1, hx.2]
  · rw [hjy, h5, abs_le]
    constructor <;> linarith [hy.1, hy.2]
  · rw [get_ray_target]
    simp only [vec3.add_def, vec3.smul_def, vec3.mk.injEq]
    refine ⟨?_, ?_, ?_⟩ <;> ring

theorem get_ray_targets_pixel_witness :
    ∃ c0 : camera ℚ, camera.initialize rat_sqrt rat_tan (small_camera 1 1) = some c0 ∧
      ∃ ox oy : ℚ, |ox| ≤ 0.5 ∧ |oy| ≤ 0.5 ∧
        (get_ray center_source c0 1 0 ()).1.origin
            + (get_ray center_source c0 1 0 ()).1.direction =
          c0.firstpixel_loc + ((((1 : Int) : ℚ) + ox) * c0.pixel_delta_u)
            + ((((0 : Int) : ℚ) + oy) * c0.pixel_delta_v) := by
  obtain ⟨c0, h0, -⟩ := small_camera_initialize 1 1
  obtain ⟨-, ox, oy, h1, h2, h3, -⟩ := get_ray_targets_pixel center_source c0
    1 0 () (fun _ => ⟨by norm_num [center_source], by norm_num [center_source]⟩)
  exact ⟨c0, h0, ox, oy, h1, h2, h3⟩

end footprint_claims

/-! ## Lemmas on sums, the gradient and scenes that never miss or always hit -/

section more_field_lemmas

variable {F M S : Type} [LinearOrderedField F]

theorem foldl_add_components (l : List (color F)) (a : color F) :
    l.foldl (fun acc c => acc + c) a =
      ⟨a.x + (l.map vec3.x).sum, a.y + (l.map vec3.y).sum, a.z + (l.map vec3.z).sum⟩ := by
  induction l generalizing a with
  | nil => simp
  | cons c l ih =>
    rw [List.foldl_cons, ih]
    simp only [vec3.add_def, List.map_cons, List.sum_cons, add_assoc]

theorem omp_worker_components (l : List (color F)) :
    omp_worker l = ⟨(l.map vec3.x).sum, (l.map vec3.y).sum, (l.map vec3.z).sum⟩ := by
  unfold omp_worker
  rw [foldl_add_components]
  simp [vec3.init]

theorem omp_reduction_components (workers : List (List (color F))) (a : color F) :
    omp_reduction a workers =
      ⟨a.x + (workers.flatten.map vec3.x).sum, a.y + (workers.flatten.map vec3.y).sum,
        a.z + (workers.flatten.map vec3.z).sum⟩ := by
  unfold omp_reduction
  induction workers generalizing a with
  | nil => simp
  | cons p ws ih =>
    rw [List.foldl_cons, ih, omp_worker_components]
    simp only [vec3.add_def, List.flatten_cons, List.map_append, List.sum_append, add_assoc]

theorem ray_color_of_miss_gradient (sqrt : F → F) (r : ray F) (d : Int)
    (world : hittable F M S) (s s1 : S) (hd : 0 < d)
    (hmiss : world.hit r ⟨0.001, ⊤⟩ s = (none, s1)) :
    ray_color sqrt r d world s = (background_gradient sqrt r.direction, s1) := by
  rw [ray_color_of_miss sqrt r d world s s1 hd hmiss]
  unfold background_gradient
  norm_num

theorem always_hit_black (sqrt : F → F) (world : hittable F M S)
    (hhit : ∀ r s, ∃ rec s1, world.hit r ⟨0.001, ⊤⟩ s = (some rec, s1)) (n : Nat) :
    ∀ (d : Int) (r : ray F) (s : S), d.toNat = n →
      (ray_color sqrt r d world s).1 = ⟨0, 0, 0⟩ := by
  induction n with
  | zero =>
    intro d r s hd
    rw [ray_color_of_nonpos sqrt r d world s (by omega)]
  | succ n ih =>
    intro d r s hd
    have hpos : 0 < d := by omega
    obtain ⟨rec, s1, hh⟩ := hhit r s
    rcases hs : world.scatter rec.mat r rec s1 with ⟨_ | ⟨A, sc⟩, s2⟩
    · rw [ray_color_of_absorb sqrt r d world s s1 s2 rec hpos hh hs]
    · rw [ray_color_of_scatter sqrt r d world s s1 s2 rec A sc hpos hh hs]
      simp only
      rw [ih (d - 1) sc s2 (by omega), vec3.mul_def]
      simp

theorem background_gradient_blue (sqrt : F → F) (direction : vec3 F) :
    (background_gradient sqrt direction).z = 1 := by
  unfold background_gradient
  simp only [vec3.add_def, vec3.smul_def]
  norm_num

theorem emitted_pixel_single_miss (sqrt : F → F) (rs : random_source F S) (c : camera F)
    (world : hittable F M S) (i j : Int) (s : S)
    (hspp : c.samples_per_pixel = 1) (hscale : c.pixel_samples_scale = 1)
    (hd : 1 ≤ c.max_depth)
    (hmiss : ∀ r s1, (world.hit r ⟨0.001, ⊤⟩ s1).1 = none) :
    (emitted_pixel sqrt rs c world i j s).1 =
      background_gradient sqrt (get_ray rs c i j s).1.direction := by
  have hm : world.hit (get_ray rs c i j s).1 ⟨0.001, ⊤⟩ (get_ray rs c i j s).2 =
      (none, (world.hit (get_ray rs c i j s).1 ⟨0.001, ⊤⟩ (get_ray rs c i j s).2).2) := by
    rw [← hmiss (get_ray rs c i j s).1 (get_ray rs c i j s).2]
  unfold emitted_pixel
  simp only
  rw [pixel_color_sum, hspp, hscale]
  simp only [Int.toNat_one, sample_colors, List.map_cons, List.map_nil, List.sum_cons,
    List.sum_nil, add_zero, vec3.smul_def, one_mul]
  rw [ray_color_of_miss_gradient sqrt _ _ world _ _ (by omega) hm]

theorem random_double_range_first_bounds {F G : Type} [LinearOrderedField F]
    (canonical : G → F × G) (hc : ∀ g, 0 ≤ (canonical g).1 ∧ (canonical g).1 < 1)
    (a b min max : F) (hab : a < b) (g : G) :
    a ≤ (random_double_range canonical min max ⟨some (a, b), g⟩).1 ∧
    (random_double_range canonical min max ⟨some (a, b), g⟩).1 < b ∧
    (random_double_range canonical min max ⟨some (a, b), g⟩).2.distribution = some (a, b) ∧
    (random_double_range canonical a b ⟨none, g⟩).2.distribution = some (a, b) := by
  obtain ⟨h0, h1⟩ := hc g
  have hpos : 0 < b - a := by linarith
  refine ⟨?_, ?_, rfl, rfl⟩
  · show a ≤ a + (b - a) * (canonical g).1
    nlinarith [mul_nonneg (le_of_lt hpos) h0]
  · show a + (b - a) * (canonical g).1 < b
    nlinarith [mul_lt_mul_of_pos_left h1 hpos]

end more_field_lemmas

/-! ## Lemmas on the viewport -/

section viewport_lemmas

variable {F M S : Type} [LinearOrderedField F] [FloorRing F]

theorem initialize_viewport (sqrt tan : F → F) (cam c0 : camera F)
    (h : camera.initialize sqrt tan cam = some c0) :
    c0.vfov = cam.vfov ∧
    c0.pixel_delta_u = viewport_u tan c0 / (c0.IMG_W : F) ∧
    c0.pixel_delta_v = viewport_v tan c0 / (c0.IMG_H : F) ∧
    c0.firstpixel_loc =
      viewport_upper_left tan c0 + (0.5 : F) * (c0.pixel_delta_u + c0.pixel_delta_v) := by
  unfold camera.initialize at h
  split at h
  · cases h
  · cases h
    exact ⟨rfl, rfl, rfl, rfl⟩

theorem initialize_height_pos (sqrt tan : F → F) (cam c0 : camera F)
    (h : camera.initialize sqrt tan cam = some c0) : 1 ≤ c0.IMG_H := by
  obtain ⟨-, n, -, hH⟩ := initialize_height sqrt tan cam c0 h
  rw [hH]
  split <;> omega

theorem pixel_delta_scaled (sqrt tan : F → F) (cam c0 : camera F)
    (h : camera.initialize sqrt tan cam = some c0) (hW : cam.IMG_W ≠ 0) :
    c0.pixel_delta_u = (viewport_height tan c0 / (c0.IMG_H : F)) * c0.u ∧
    c0.pixel_delta_v = (-(viewport_height tan c0 / (c0.IMG_H : F))) * c0.v := by
  obtain ⟨-, hu, hv, -⟩ := initialize_viewport sqrt tan cam c0 h
  have hH := initialize_height_pos sqrt tan cam c0 h
  have hHF : (c0.IMG_H : F) ≠ 0 := by
    have : (c0.IMG_H : Int) ≠ 0 := by omega
    exact_mod_cast this
  have hWF : (c0.IMG_W : F) ≠ 0 := by
    rw [(initialize_fields sqrt tan cam c0 h).1]
    exact_mod_cast hW
  constructor
  · rw [hu, viewport_u, viewport_width, vec3.div_def, vec3.smul_def, vec3.smul_def,
      vec3.ext_iff]
    refine ⟨?_, ?_, ?_⟩ <;> simp only <;> field_simp <;> ring
  · rw [hv, viewport_v, vec3.div_def, vec3.neg_def, vec3.smul_def, vec3.smul_def,
      vec3.ext_iff]
    refine ⟨?_, ?_, ?_⟩ <;> simp only <;> field_simp

theorem viewport_edges (sqrt tan : F → F) (cam c0 : camera F)
    (h : camera.initialize sqrt tan cam = some c0) (hW : cam.IMG_W ≠ 0) :
    viewport_u tan c0 = (c0.IMG_W : F) * c0.pixel_delta_u ∧
    viewport_v tan c0 = (c0.IMG_H : F) * c0.pixel_delta_v := by
  obtain ⟨-, hu, hv, -⟩ := initialize_viewport sqrt tan cam c0 h
  have hH := initialize_height_pos sqrt tan cam c0 h
  have hHF : (c0.IMG_H : F) ≠ 0 := by
    have : (c0.IMG_H : Int) ≠ 0 := by omega
    exact_mod_cast this
  have hWF : (c0.IMG_W : F) ≠ 0 := by
    rw [(initialize_fields sqrt tan cam c0 h).1]
    exact_mod_cast hW
  constructor
  · rw [hu, vec3.div_def, vec3.smul_def, vec3.ext_iff]
    refine ⟨?_, ?_, ?_⟩ <;> simp only <;> field_simp
  · rw [hv, vec3.div_def, vec3.smul_def, vec3.ext_iff]
    refine ⟨?_, ?_, ?_⟩ <;> simp only <;> field_simp

end viewport_lemmas

/-! ## Lemmas over the reals: ranges, the tangent, the pixel grid -/

section more_real_lemmas

variable {M S : Type}

theorem tan_half_angle_pos (a : ℝ) (h0 : 0 < a) (h1 : a < 180) :
    0 < Real.tan (degrees_to_radians a / 2) := by
  have hp := pi_lt_real_pi
  have hpp := pi_pos
  have e : degrees_to_radians a / 2 = a * pi / 360 := by
    unfold degrees_to_radians
    norm_num
    ring
  rw [e]
  apply Real.tan_pos_of_pos_of_lt_pi_div_two
  · positivity
  · have : a * pi < 180 * Real.pi := by nlinarith
    linarith

theorem viewport_height_pos (c : camera ℝ) (h0 : 0 < c.vfov) (h1 : c.vfov < 180)
    (hf : 0 < c.focus_dist) : 0 < viewport_height Real.tan c := by
  unfold viewport_height
  have := tan_half_angle_pos c.vfov h0 h1
  positivity

theorem pixel_scale_pos (cam c0 : camera ℝ)
    (h : camera.initialize Real.sqrt Real.tan cam = some c0)
    (h0 : 0 < cam.vfov) (h1 : cam.vfov < 180) (hf : 0 < cam.focus_dist) :
    0 < viewport_height Real.tan c0 / (c0.IMG_H : ℝ) := by
  have hH := initialize_height_pos Real.sqrt Real.tan cam c0 h
  have hHF : (0 : ℝ) < (c0.IMG_H : ℝ) := by
    have : (0 : Int) < c0.IMG_H := by omega
    exact_mod_cast this
  obtain ⟨hv, -⟩ := initialize_viewport Real.sqrt Real.tan cam c0 h
  obtain ⟨-, -, -, -, hfd, -⟩ := initialize_fields Real.sqrt Real.tan cam c0 h
  exact div_pos (viewport_height_pos c0 (by rw [hv]; exact h0) (by rw [hv]; exact h1)
    (by rw [hfd]; exact hf)) hHF

theorem length_smul_unit (k : ℝ) (a : vec3 ℝ) (hk : 0 ≤ k) (ha : vec3.length_squared a = 1) :
    vec3.length Real.sqrt (k * a) = k := by
  unfold vec3.length
  rw [vec3.length_squared_smul, ha, mul_one, Real.sqrt_mul_self hk]

theorem length_neg_smul_unit (k : ℝ) (a : vec3 ℝ) (hk : 0 ≤ k)
    (ha : vec3.length_squared a = 1) : vec3.length Real.sqrt ((-k) * a) = k := by
  unfold vec3.length
  rw [vec3.length_squared_smul, ha, mul_one, neg_mul_neg, Real.sqrt_mul_self hk]

theorem triple_product_cycle (a b c : vec3 ℝ) :
    vec3.dot (vec3.cross a b) c = vec3.dot b (vec3.cross c a) := by
  simp only [vec3.dot, vec3.cross]
  ring

theorem initialize_v_dot_vup (tan : ℝ → ℝ) (cam c0 : camera ℝ)
    (hinit : camera.initialize Real.sqrt tan cam = some c0)
    (hfrom : cam.lookFrom ≠ cam.lookAt)
    (hup : vec3.cross cam.vup (cam.lookFrom - cam.lookAt) ≠ ⟨0, 0, 0⟩) :
    0 < vec3.dot c0.v cam.vup := by
  obtain ⟨-, -, -, -, -, -, -, hw, hu, hv, -⟩ := initialize_fields Real.sqrt tan cam c0 hinit
  have hL := vec3.length_pos _ (vec3.sub_ne_zero _ _ hfrom)
  have hc : vec3.cross cam.vup c0.w ≠ ⟨0, 0, 0⟩ := by
    rw [hw, vec3.unit_vector_def, vec3.cross_smul_right]
    exact vec3.smul_ne_zero _ _ (one_div_ne_zero (ne_of_gt hL)) hup
  have hLc := vec3.length_pos _ hc
  rw [hv, triple_product_cycle, hu, vec3.unit_vector_def, vec3.dot_smul_left, vec3.dot_self,
    ← vec3.length_mul_self]
  have : 1 / vec3.length Real.sqrt (vec3.cross cam.vup c0.w) *
      (vec3.length Real.sqrt (vec3.cross cam.vup c0.w) *
        vec3.length Real.sqrt (vec3.cross cam.vup c0.w)) =
      vec3.length Real.sqrt (vec3.cross cam.vup c0.w) := by
    field_simp
  rw [this]
  exact hLc

theorem firstpixel_on_focus_plane (tan : ℝ → ℝ) (cam c0 : camera ℝ)
    (hinit : camera.initialize Real.sqrt tan cam = some c0)
    (hfrom : cam.lookFrom ≠ cam.lookAt)
    (hup : vec3.cross cam.vup (cam.lookFrom - cam.lookAt) ≠ ⟨0, 0, 0⟩) (a b : ℝ) :
    vec3.dot ((c0.firstpixel_loc + (a * c0.pixel_delta_u) + (b * c0.pixel_delta_v))
      - c0.center) c0.w = -cam.focus_dist := by
  obtain ⟨-, -, hww, -, huw, hvw⟩ := initialize_basis tan cam c0 hinit hfrom hup
  obtain ⟨-, hpu, hpv, hfp⟩ := initialize_viewport Real.sqrt tan cam c0 hinit
  obtain ⟨-, -, -, -, hfd, -⟩ := initialize_fields Real.sqrt tan cam c0 hinit
  rw [hfp, hpu, hpv, viewport_upper_left, viewport_u, viewport_v, ← hfd]
  simp only [vec3.length_squared, vec3.dot] at hww huw hvw
  simp only [vec3.dot, vec3.add_def, vec3.sub_def, vec3.smul_def, vec3.div_def, vec3.neg_def]
  linear_combination (-c0.focus_dist) * hww
    + (viewport_width tan c0 * (-(1 / 2) + 0.5 * (1 / (c0.IMG_W : ℝ))
        + a * (1 / (c0.IMG_W : ℝ)))) * huw
    + (viewport_height tan c0 * ((1 / 2) - 0.5 * (1 / (c0.IMG_H : ℝ))
        - b * (1 / (c0.IMG_H : ℝ)))) * hvw

theorem non_degenerate_default : non_degenerate ({} : camera ℝ) := by
  refine ⟨?_, ?_, ?_⟩
  · simp [vec3.ext_iff]
  · simp [vec3.ext_iff, vec3.cross, vec3.sub_def]
  · decide

theorem sample_square_rim_source :
    (sample_square (rim_source : random_source ℝ Unit) ()).1 = ⟨0, 0, 0⟩ := by
  simp only [sample_square, random_double, rim_source, vec3.mk.injEq]
  norm_num

end more_real_lemmas

/-! ## The 2x2 image of the default view, evaluated -/

section small_camera_lemmas

theorem small_camera_height (spp depth : Int) (c0 : camera ℚ)
    (h : camera.initialize rat_sqrt rat_tan (small_camera spp depth) = some c0) :
    c0.IMG_W = 2 ∧ c0.IMG_H = 2 := by
  obtain ⟨c1, h1, hW, hH, -⟩ := small_camera_initialize spp depth
  rw [h] at h1
  cases h1
  exact ⟨hW, hH⟩

theorem small_camera_basis (spp depth : Int) (c0 : camera ℚ)
    (h : camera.initialize rat_sqrt rat_tan (small_camera spp depth) = some c0) :
    c0.center = ⟨0, 0, 0⟩ ∧ c0.u = ⟨1, 0, 0⟩ ∧ c0.v = ⟨0, 1, 0⟩ ∧ c0.w = ⟨0, 0, 1⟩ ∧
    c0.defocus_angle = 0 ∧ c0.focus_dist = 10 ∧ c0.vfov = 90 := by
  obtain ⟨-, -, -, hda, hfd, -, hc, hw, hu, hv, -⟩ :=
    initialize_fields rat_sqrt rat_tan _ c0 h
  obtain ⟨hvf, -⟩ := initialize_viewport rat_sqrt rat_tan _ c0 h
  have hw1 : c0.w = ⟨0, 0, 1⟩ := by
    rw [hw]
    simp [small_camera, vec3.unit_vector_def, vec3.length, vec3.length_squared, vec3.sub_def,
      vec3.smul_def, rat_sqrt_one]
  have hu1 : c0.u = ⟨1, 0, 0⟩ := by
    rw [hu, hw1]
    simp [small_camera, vec3.unit_vector_def, vec3.length, vec3.length_squared, vec3.cross,
      vec3.smul_def, rat_sqrt_one]
  refine ⟨hc, hu1, ?_, hw1, hda, hfd, hvf⟩
  rw [hv, hw1, hu1]
  simp [vec3.cross]

theorem small_camera_viewport (spp depth : Int) (c0 : camera ℚ)
    (h : camera.initialize rat_sqrt rat_tan (small_camera spp depth) = some c0) :
    viewport_u rat_tan c0 = ⟨20, 0, 0⟩ ∧ viewport_v rat_tan c0 = ⟨0, -20, 0⟩ ∧
    viewport_upper_left rat_tan c0 = ⟨-10, 10, -10⟩ ∧
    c0.pixel_delta_u = ⟨10, 0, 0⟩ ∧ c0.pixel_delta_v = ⟨0, -10, 0⟩ ∧
    c0.firstpixel_loc = ⟨-5, 5, -10⟩ := by
  obtain ⟨hW, hH⟩ := small_camera_height spp depth c0 h
  obtain ⟨hc, hu, hv, hw, -, hfd, hvf⟩ := small_camera_basis spp depth c0 h
  obtain ⟨-, hpu, hpv, hfp⟩ := initialize_viewport rat_sqrt rat_tan _ c0 h
  have ht : rat_tan (degrees_to_radians (90 : ℚ) / 2) = 1 := by
    unfold rat_tan
    rw [if_neg]
    norm_num [degrees_to_radians, pi]
  have hvh : viewport_height rat_tan c0 = 20 := by
    rw [viewport_height, hvf, hfd, ht]
    norm_num
  have hvw : viewport_width rat_tan c0 = 20 := by
    rw [viewport_width, hvh, hW, hH]
    norm_num
  have e1 : viewport_u rat_tan c0 = ⟨20, 0, 0⟩ := by
    rw [viewport_u, hvw, hu, vec3.smul_def]
    norm_num
  have e2 : viewport_v rat_tan c0 = ⟨0, -20, 0⟩ := by
    rw [viewport_v, hvh, hv, vec3.neg_def, vec3.smul_def]
    norm_num
  have e3 : viewport_upper_left rat_tan c0 = ⟨-10, 10, -10⟩ := by
    rw [viewport_upper_left, e1, e2, hc, hw, hfd]
    simp only [vec3.sub_def, vec3.smul_def, vec3.div_def]
    norm_num
  have e4 : c0.pixel_delta_u = ⟨10, 0, 0⟩ := by
    rw [hpu, e1, hW, vec3.div_def]
    norm_num
  have e5 : c0.pixel_delta_v = ⟨0, -10, 0⟩ := by
    rw [hpv, e2, hH, vec3.div_def]
    norm_num
  refine ⟨e1, e2, e3, e4, e5, ?_⟩
  rw [hfp, e3, e4, e5]
  simp only [vec3.add_def, vec3.smul_def]
  norm_num

theorem sample_square_center_source :
    (sample_square center_source ()).1 = ⟨0, 0, 0⟩ := by
  simp only [sample_square, random_double, center_source, vec3.mk.injEq]
  norm_num

theorem small_camera_ray (spp depth : Int) (c0 : camera ℚ)
    (h : camera.initialize rat_sqrt rat_tan (small_camera spp depth) = some c0) (i j : Int) :
    (get_ray center_source c0 i j ()).1.origin = ⟨0, 0, 0⟩ ∧
    (get_ray center_source c0 i j ()).1.direction =
      ⟨-5 + 10 * (i : ℚ), 5 - 10 * (j : ℚ), -10⟩ ∧
    (get_ray center_source c0 i j ()).2 = () := by
  obtain ⟨hc, -, -, -, hda, -, -⟩ := small_camera_basis spp depth c0 h
  obtain ⟨-, -, -, hpu, hpv, hfp⟩ := small_camera_viewport spp depth c0 h
  have ho : (get_ray center_source c0 i j ()).1.origin = ⟨0, 0, 0⟩ := by
    rw [get_ray_origin_of_nonpos _ _ _ _ _ (by rw [hda]), hc]
  have ht := get_ray_target center_source c0 i j ()
  rw [ho, sample_square_center_source, hfp, hpu, hpv] at ht
  refine ⟨ho, ?_, rfl⟩
  simp only [vec3.add_def, vec3.smul_def, vec3.ext_iff] at ht
  rw [vec3.ext_iff]
  simp only
  refine ⟨?_, ?_, ?_⟩
  · linarith [ht.1]
  · linarith [ht.2.1]
  · linarith [ht.2.2]

theorem non_degenerate_small_camera (spp depth : Int) :
    non_degenerate (small_camera spp depth) := by
  refine ⟨?_, ?_, ?_⟩
  · simp [small_camera, vec3.ext_iff]
  · simp [small_camera, vec3.ext_iff, vec3.cross, vec3.sub_def]
  · simp [small_camera]

end small_camera_lemmas

/-! ## The corner pixels and the no-hit image: claims C11 and C12 -/

section viewport_claims

variable {F M S : Type} [LinearOrderedField F] [FloorRing F]

/-- C11 (amended): for a non-degenerate configuration with defocus disabled, the rays at
sample offset `(0, 0)` start at the centre and target the centres of the pixels; for the
four corner pixels these are the four corners of the viewport moved half a pixel inward:
`viewport_upper_left + (pixel_delta_u + pixel_delta_v)/2`,
`viewport_upper_left + viewport_u + (-pixel_delta_u + pixel_delta_v)/2`,
`viewport_upper_left + viewport_v + (pixel_delta_u - pixel_delta_v)/2` and
`viewport_upper_left + viewport_u + viewport_v - (pixel_delta_u + pixel_delta_v)/2`, with
`viewport_upper_left = centre - focus_dist*w - viewport_u/2 - viewport_v/2`. -/
theorem corner_rays_target_pixel_centres (sqrt tan : F → F) (rs : random_source F S)
    (cam c0 : camera F) (s : S)
    (hinit : camera.initialize sqrt tan cam = some c0)
    (hnd : non_degenerate cam) (hdef : cam.defocus_angle ≤ 0)
    (hz : (sample_square rs s).1 = ⟨0, 0, 0⟩) :
    (∀ i j : Int, (get_ray rs c0 i j s).1.origin = c0.center) ∧
    viewport_upper_left tan c0 =
      c0.center - (c0.focus_dist * c0.w) - viewport_u tan c0 / (2 : F)
        - viewport_v tan c0 / (2 : F) ∧
    (get_ray rs c0 0 0 s).1.origin + (get_ray rs c0 0 0 s).1.direction =
      viewport_upper_left tan c0 + (0.5 : F) * (c0.pixel_delta_u + c0.pixel_delta_v) ∧
    (get_ray rs c0 (c0.IMG_W - 1) 0 s).1.origin
        + (get_ray rs c0 (c0.IMG_W - 1) 0 s).1.direction =
      (viewport_upper_left tan c0 + viewport_u tan c0)
        + (0.5 : F) * (-c0.pixel_delta_u + c0.pixel_delta_v) ∧
    (get_ray rs c0 0 (c0.IMG_H - 1) s).1.origin
        + (get_ray rs c0 0 (c0.IMG_H - 1) s).1.direction =
      (viewport_upper_left tan c0 + viewport_v tan c0)
        + (0.5 : F) * (c0.pixel_delta_u - c0.pixel_delta_v) ∧
    (get_ray rs c0 (c0.IMG_W - 1) (c0.IMG_H - 1) s).1.origin
        + (get_ray rs c0 (c0.IMG_W - 1) (c0.IMG_H - 1) s).1.direction =
      (viewport_upper_left tan c0 + viewport_u tan c0 + viewport_v tan c0)
        - (0.5 : F) * (c0.pixel_delta_u + c0.pixel_delta_v) := by
  obtain ⟨-, -, -, hfp⟩ := initialize_viewport sqrt tan cam c0 hinit
  obtain ⟨hvu, hvv⟩ := viewport_edges sqrt tan cam c0 hinit hnd.2.2
  have hda : c0.defocus_angle ≤ 0 := by
    rw [(initialize_fields sqrt tan cam c0 hinit).2.2.2.1]
    exact hdef
  refine ⟨fun i j => get_ray_origin_of_nonpos rs c0 i j s hda, rfl, ?_, ?_, ?_, ?_⟩
  · rw [get_ray_target, hz, hfp]
    simp only [vec3.add_def, vec3.smul_def, vec3.ext_iff]
    push_cast
    refine ⟨?_, ?_, ?_⟩ <;> ring
  · rw [get_ray_target, hz, hfp, hvu]
    simp only [vec3.add_def, vec3.neg_def, vec3.smul_def, vec3.ext_iff]
    push_cast
    refine ⟨?_, ?_, ?_⟩ <;> ring
  · rw [get_ray_target, hz, hfp, hvv]
    simp only [vec3.add_def, vec3.sub_def, vec3.smul_def, vec3.ext_iff]
    push_cast
    refine ⟨?_, ?_, ?_⟩ <;> ring
  · rw [get_ray_target, hz, hfp, hvu, hvv]
    simp only [vec3.add_def, vec3.sub_def, vec3.smul_def, vec3.ext_iff]
    push_cast
    refine ⟨?_, ?_, ?_⟩ <;> ring

theorem corner_rays_target_pixel_centres_witness :
    ∃ c0 : camera ℚ, camera.initialize rat_sqrt rat_tan (small_camera 1 1) = some c0 ∧
      (get_ray center_source c0 (c0.IMG_W - 1) (c0.IMG_H - 1) ()).1.origin
          + (get_ray center_source c0 (c0.IMG_W - 1) (c0.IMG_H - 1) ()).1.direction =
        (viewport_upper_left rat_tan c0 + viewport_u rat_tan c0 + viewport_v rat_tan c0)
          - (0.5 : ℚ) * (c0.pixel_delta_u + c0.pixel_delta_v) := by
  obtain ⟨c0, h0, -⟩ := small_camera_initialize 1 1
  exact ⟨c0, h0, (corner_rays_target_pixel_centres rat_sqrt rat_tan center_source
    (small_camera 1 1) c0 () h0 (non_degenerate_small_camera 1 1) (by norm_num [small_camera])
    sample_square_center_source).2.2.2.2.2⟩

/-- C11 fails as stated: in the 2x2 image of the default view the ray of pixel `(0, 0)` at
sample offset `(0, 0)` starts at the centre `(0,0,0)` with direction `(-5,5,-10)`, the centre
of that pixel, while the upper left corner of the viewport is `(-10,10,-10)`; the cross
product of the direction with the direction of the corner is `(50,50,0)`, not zero, so the
ray does not point toward the corner. -/
theorem corner_ray_misses_viewport_corner :
    ∃ c0 : camera ℚ, camera.initialize rat_sqrt rat_tan (small_camera 1 1) = some c0 ∧
      non_degenerate (small_camera 1 1) ∧ (small_camera 1 1).defocus_angle ≤ 0 ∧
      (sample_square center_source ()).1 = ⟨0, 0, 0⟩ ∧
      (get_ray center_source c0 0 0 ()).1.origin = ⟨0, 0, 0⟩ ∧
      (get_ray center_source c0 0 0 ()).1.direction = ⟨-5, 5, -10⟩ ∧
      viewport_upper_left rat_tan c0 = ⟨-10, 10, -10⟩ ∧
      vec3.cross (get_ray center_source c0 0 0 ()).1.direction
        (viewport_upper_left rat_tan c0 - (get_ray center_source c0 0 0 ()).1.origin) =
        ⟨50, 50, 0⟩ := by
  obtain ⟨c0, h0, -⟩ := small_camera_initialize 1 1
  obtain ⟨ho, hd, -⟩ := small_camera_ray 1 1 c0 h0 0 0
  obtain ⟨-, -, hul, -⟩ := small_camera_viewport 1 1 c0 h0
  have hd1 : (get_ray center_source c0 0 0 ()).1.direction = ⟨-5, 5, -10⟩ := by
    rw [hd]
    norm_num
  refine ⟨c0, h0, non_degenerate_small_camera 1 1, by norm_num [small_camera],
    sample_square_center_source, ho, hd1, hul, ?_⟩
  rw [hd1, ho, hul]
  simp only [vec3.cross, vec3.sub_def]
  norm_num

/-- C12 (amended): for `samples_per_pixel = 1`, a bounce budget `max_depth ≥ 1` and a scene
that never reports a hit, the colour `render` emits for each pixel is the background
gradient `(1-a)*(1,1,1) + a*(0.5,0.7,1.0)`, `a = 0.5*(unit(direction).y + 1)`, at the
direction of the one ray generated for that pixel. -/
theorem render_no_hit_gradient (sqrt tan : F → F) (rs : random_source F S)
    (world : hittable F M S) (s : S) (cam c0 : camera F)
    (hspp : cam.samples_per_pixel = 1) (hd : 1 ≤ cam.max_depth)
    (hmiss : ∀ r s1, (world.hit r ⟨0.001, ⊤⟩ s1).1 = none)
    (hinit : camera.initialize sqrt tan cam = some c0) :
    (∀ (i j : Int) (s1 : S), (emitted_pixel sqrt rs c0 world i j s1).1 =
      background_gradient sqrt (get_ray rs c0 i j s1).1.direction) ∧
    ∃ out, render sqrt tan rs cam world s = some out ∧
      out.1.length = c0.IMG_W.toNat * c0.IMG_H.toNat ∧
      ∀ k : Nat, k < c0.IMG_W.toNat * c0.IMG_H.toNat →
        out.1[k]? = some (background_gradient sqrt
          (get_ray rs c0 ((k % c0.IMG_W.toNat : Nat) : Int) ((k / c0.IMG_W.toNat : Nat) : Int)
            (flat_pixels c0.IMG_W.toNat (emitted_pixel sqrt rs c0 world) s k).2).1.direction) := by
  obtain ⟨-, hs, hmd, -, -, hscale, -⟩ := initialize_fields sqrt tan cam c0 hinit
  have hscale1 : c0.pixel_samples_scale = 1 := by
    rw [hscale, hspp]
    norm_num
  have hpix : ∀ (i j : Int) (s1 : S), (emitted_pixel sqrt rs c0 world i j s1).1 =
      background_gradient sqrt (get_ray rs c0 i j s1).1.direction := fun i j s1 =>
    emitted_pixel_single_miss sqrt rs c0 world i j s1 (by rw [hs, hspp]) hscale1
      (by rw [hmd]; exact hd) hmiss
  refine ⟨hpix, _, render_of_initialize sqrt tan rs cam c0 world s hinit, ?_, fun k hk => ?_⟩
  · rw [flat_pixels_length, Nat.mul_comm]
  · rw [flat_pixels_get _ _ _ _ k (by rw [Nat.mul_comm]; exact hk), hpix]

theorem render_no_hit_gradient_witness :
    ∃ c0 out, camera.initialize rat_sqrt rat_tan (small_camera 1 1) = some c0 ∧
      render rat_sqrt rat_tan center_source (small_camera 1 1) empty_world () = some out ∧
      (∀ k : Nat, k < 4 →
        out.1[k]? = some (background_gradient rat_sqrt
          (get_ray center_source c0 ((k % 2 : Nat) : Int) ((k / 2 : Nat) : Int)
            (flat_pixels 2 (emitted_pixel rat_sqrt center_source c0 empty_world) ()
              k).2).1.direction)) ∧
      (get_ray center_source c0 0 0 ()).1.direction = ⟨-5, 5, -10⟩ ∧
      (get_ray center_source c0 1 0 ()).1.direction = ⟨5, 5, -10⟩ ∧
      (get_ray center_source c0 0 1 ()).1.direction = ⟨-5, -5, -10⟩ ∧
      (get_ray center_source c0 1 1 ()).1.direction = ⟨5, -5, -10⟩ := by
  obtain ⟨c0, h0, hW, hH, -, -⟩ := small_camera_initialize 1 1
  obtain ⟨-, out, h1, -, h2⟩ := render_no_hit_gradient rat_sqrt rat_tan center_source
    empty_world () (small_camera 1 1) c0 rfl (by decide) (fun _ _ => rfl) h0
  rw [hW, hH] at h2
  have hd := fun i j => (small_camera_ray 1 1 c0 h0 i j).2.1
  refine ⟨c0, out, h0, h1, h2, ?_, ?_, ?_, ?_⟩
  · rw [hd 0 0]; norm_num
  · rw [hd 1 0]; norm_num
  · rw [hd 0 1]; norm_num
  · rw [hd 1 1]; norm_num

/-- C12 fails as stated: with `samples_per_pixel = 1`, the empty scene and `max_depth = 0`
every colour `render` emits for the 2x2 image is black, whereas the background gradient is
never black (its blue channel is 1 at every direction). -/
theorem render_no_hit_black_at_depth_zero :
    (small_camera 1 0).samples_per_pixel = 1 ∧
    (∀ (r : ray ℚ) (s1 : Unit), (empty_world.hit r ⟨0.001, ⊤⟩ s1).1 = none) ∧
    (∃ out, render rat_sqrt rat_tan center_source (small_camera 1 0) empty_world () = some out ∧
      out.1.length = 4 ∧ ∀ c ∈ out.1, c = ⟨0, 0, 0⟩) ∧
    ∀ direction : vec3 ℚ, background_gradient rat_sqrt direction ≠ ⟨0, 0, 0⟩ := by
  obtain ⟨c0, h0, hW, hH, -, hd⟩ := small_camera_initialize 1 0
  refine ⟨rfl, fun _ _ => rfl, ⟨_, render_of_initialize rat_sqrt rat_tan center_source _ c0
    empty_world () h0, ?_, ?_⟩, fun direction hb => ?_⟩
  · rw [flat_pixels_length, hW, hH]
    rfl
  · exact flat_pixels_forall _ _ _ (fun c => c = ⟨0, 0, 0⟩)
      (fun i j s1 => emitted_pixel_black rat_sqrt center_source c0 empty_world i j s1
        (by rw [hd])) _
  · have hz := background_gradient_blue rat_sqrt direction
    rw [hb] at hz
    norm_num at hz

end viewport_claims

/-! ## The reduction and the always-hit scene: claims C13 and C14 -/

section reduction_claims

variable {F M S : Type} [LinearOrderedField F]

/-- C13: for every list of sample colours and every distribution of it over `N ≥ 1`
workers (sub-lists whose concatenation is a permutation of the list, combined in any order),
the reduction that lets each worker sum its samples from `vec3() = (0,0,0)` and then adds
the partial sums to the initial `pixel_color = (0,0,0)` equals the sequential sum, which is
what the sample loop computes when one worker runs it. -/
theorem omp_reduction_eq_sequential (samples : List (color F))
    (workers : List (List (color F))) (_hN : 1 ≤ workers.length)
    (hperm : workers.flatten.Perm samples) :
    omp_reduction ⟨0, 0, 0⟩ workers = sequential_sum samples ∧
    ∀ {M S : Type} (sqrt : F → F) (rs : random_source F S) (cam : camera F)
      (world : hittable F M S) (i j : Int) (s : S),
      sequential_sum (sample_colors sqrt rs cam world i j cam.samples_per_pixel.toNat s) =
        (pixel_color sqrt rs cam world i j s).1 := by
  constructor
  · unfold sequential_sum
    rw [omp_reduction_components, foldl_add_components, (hperm.map vec3.x).sum_eq,
      (hperm.map vec3.y).sum_eq, (hperm.map vec3.z).sum_eq]
  · intro M S sqrt rs cam world i j s
    unfold sequential_sum
    rw [foldl_add_components, pixel_color_sum]
    simp

theorem omp_reduction_eq_sequential_witness :
    omp_reduction (⟨0, 0, 0⟩ : color ℚ)
        [[⟨0, 0, 1⟩, ⟨1, 0, 0⟩], [], [⟨0, 1, 0⟩]] =
      sequential_sum [⟨1, 0, 0⟩, ⟨0, 1, 0⟩, ⟨0, 0, 1⟩] :=
  (omp_reduction_eq_sequential [⟨1, 0, 0⟩, ⟨0, 1, 0⟩, ⟨0, 0, 1⟩]
    [[⟨0, 0, 1⟩, ⟨1, 0, 0⟩], [], [⟨0, 1, 0⟩]] (by decide)
    ((List.Perm.swap _ _ _).trans ((List.Perm.swap _ _ _).cons _))).1

/-- C14: in a scene in which every ray hits and every attenuation has its channels in
`[0, 1]`, each channel of `ray_color(r, d+1, scene)` is at most the same channel of
`ray_color(r, d, scene)` for every budget `d ≥ 0`: both are black, since a path that always
hits ends at the budget or in an absorption. -/
theorem always_hit_non_increasing (sqrt : F → F) (world : hittable F M S) (r : ray F)
    (d : Int) (s : S)
    (hhit : ∀ r1 s1, ∃ rec s2, world.hit r1 ⟨0.001, ⊤⟩ s1 = (some rec, s2))
    (_hatt : ∀ m r1 rec s1 A sc s2, world.scatter m r1 rec s1 = (some (A, sc), s2) →
      (0 ≤ A.x ∧ A.x ≤ 1) ∧ (0 ≤ A.y ∧ A.y ≤ 1) ∧ (0 ≤ A.z ∧ A.z ≤ 1))
    (_hd : 0 ≤ d) :
    ((ray_color sqrt r (d + 1) world s).1.x ≤ (ray_color sqrt r d world s).1.x ∧
      (ray_color sqrt r (d + 1) world s).1.y ≤ (ray_color sqrt r d world s).1.y ∧
      (ray_color sqrt r (d + 1) world s).1.z ≤ (ray_color sqrt r d world s).1.z) ∧
    (ray_color sqrt r (d + 1) world s).1 = ⟨0, 0, 0⟩ ∧
    (ray_color sqrt r d world s).1 = ⟨0, 0, 0⟩ := by
  have h1 := always_hit_black sqrt world hhit (d + 1).toNat (d + 1) r s rfl
  have h0 := always_hit_black sqrt world hhit d.toNat d r s rfl
  rw [h1, h0]
  exact ⟨⟨le_refl _, le_refl _, le_refl _⟩, rfl, rfl⟩

theorem always_hit_non_increasing_witness :
    (ray_color rat_sqrt up_ray (3 + 1) mirror_world ()).1.x ≤
        (ray_color rat_sqrt up_ray 3 mirror_world ()).1.x ∧
      (ray_color rat_sqrt up_ray (3 + 1) mirror_world ()).1.y ≤
        (ray_color rat_sqrt up_ray 3 mirror_world ()).1.y ∧
      (ray_color rat_sqrt up_ray (3 + 1) mirror_world ()).1.z ≤
        (ray_color rat_sqrt up_ray 3 mirror_world ()).1.z :=
  (always_hit_non_increasing rat_sqrt mirror_world up_ray 3 ()
    (fun r1 s1 => ⟨⟨r1.origin, ⟨0, 1, 0⟩, (), 1⟩, s1, rfl⟩)
    (fun _ _ _ _ A _ _ h => by
      simp only [mirror_world, Prod.mk.injEq, Option.some.injEq] at h
      rw [← h.1.1]
      norm_num)
    (by decide)).1

end reduction_claims

/-! ## The orientation of the pixel grid: claim C15 -/

section orientation_claims

variable {S : Type}

/-- C15: for a non-degenerate configuration with `0 < vfov < 180` and `focus_dist > 0`,
`v` points up (`dot(v, vup) > 0`), `pixel_delta_v` is a negative multiple of `v`
(`dot(pixel_delta_v, v) < 0` and `dot(pixel_delta_v, vup) < 0`) and `pixel_delta_u` is a
positive multiple of `u`; so at zero jitter the target of pixel `(i, j+1)` is strictly lower
along `v` than that of pixel `(i, j)`, and the target of pixel `(i+1, j)` strictly further
along `u`. -/
theorem rows_increase_downward (rs : random_source ℝ S) (cam c0 : camera ℝ) (i j : Int)
    (s s1 : S)
    (hinit : camera.initialize Real.sqrt Real.tan cam = some c0)
    (hnd : non_degenerate cam)
    (h0 : 0 < cam.vfov) (h1 : cam.vfov < 180) (hf : 0 < cam.focus_dist)
    (hz : (sample_square rs s).1 = ⟨0, 0, 0⟩) (hz1 : (sample_square rs s1).1 = ⟨0, 0, 0⟩) :
    0 < vec3.dot c0.v cam.vup ∧
    (∃ k : ℝ, k < 0 ∧ c0.pixel_delta_v = k * c0.v) ∧
    vec3.dot c0.pixel_delta_v c0.v < 0 ∧
    vec3.dot c0.pixel_delta_v cam.vup < 0 ∧
    (∃ k : ℝ, 0 < k ∧ c0.pixel_delta_u = k * c0.u) ∧
    vec3.dot ((get_ray rs c0 i (j + 1) s1).1.origin + (get_ray rs c0 i (j + 1) s1).1.direction)
        c0.v <
      vec3.dot ((get_ray rs c0 i j s).1.origin + (get_ray rs c0 i j s).1.direction) c0.v ∧
    vec3.dot ((get_ray rs c0 i j s).1.origin + (get_ray rs c0 i j s).1.direction) c0.u <
      vec3.dot ((get_ray rs c0 (i + 1) j s1).1.origin
        + (get_ray rs c0 (i + 1) j s1).1.direction) c0.u := by
  obtain ⟨hfrom, hup, hW⟩ := hnd
  obtain ⟨huu, hvv, -, huv, -, -⟩ := initialize_basis Real.tan cam c0 hinit hfrom hup
  obtain ⟨hpu, hpv⟩ := pixel_delta_scaled Real.sqrt Real.tan cam c0 hinit hW
  have hk := pixel_scale_pos cam c0 hinit h0 h1 hf
  have hvup := initialize_v_dot_vup Real.tan cam c0 hinit hfrom hup
  have hdv : vec3.dot c0.pixel_delta_v c0.v < 0 := by
    rw [hpv, vec3.dot_smul_left, vec3.dot_self, hvv]
    linarith
  have hdu : 0 < vec3.dot c0.pixel_delta_u c0.u := by
    rw [hpu, vec3.dot_smul_left, vec3.dot_self, huu]
    linarith
  refine ⟨hvup, ⟨_, by linarith, hpv⟩, hdv, ?_, ⟨_, hk, hpu⟩, ?_, ?_⟩
  · rw [hpv, vec3.dot_smul_left]
    nlinarith
  · rw [get_ray_target, get_ray_target, hz, hz1]
    simp only [vec3.dot, vec3.add_def, vec3.smul_def] at hdv ⊢
    push_cast
    linarith
  · rw [get_ray_target, get_ray_target, hz, hz1]
    simp only [vec3.dot, vec3.add_def, vec3.smul_def] at hdu ⊢
    push_cast
    linarith

theorem rows_increase_downward_witness :
    ∃ c0 : camera ℝ, camera.initialize Real.sqrt Real.tan {} = some c0 ∧
      0 < vec3.dot c0.v (⟨0, 1, 0⟩ : vec3 ℝ) ∧
      vec3.dot c0.pixel_delta_v c0.v < 0 ∧
      vec3.dot ((get_ray rim_source c0 3 (4 + 1) ()).1.origin
          + (get_ray rim_source c0 3 (4 + 1) ()).1.direction) c0.v <
        vec3.dot ((get_ray rim_source c0 3 4 ()).1.origin
          + (get_ray rim_source c0 3 4 ()).1.direction) c0.v := by
  obtain ⟨c0, h0⟩ := initialize_isSome_unit_aspect Real.sqrt Real.tan ({} : camera ℝ)
    (by norm_num) (by norm_num) (by norm_num)
  obtain ⟨h1, -, h2, -, -, h3, -⟩ := rows_increase_downward rim_source {} c0 3 4 () () h0
    non_degenerate_default (by norm_num) (by norm_num) (by norm_num)
    sample_square_rim_source sample_square_rim_source
  exact ⟨c0, h0, h1, h2, h3⟩

end orientation_claims

/-! ## The random utilities: claims C16 and C17 -/

section random_claims

/-- C16 fails on the code: nothing orders the accesses of two workers to the static
generator. Under the schedule in which both workers read the generator before either writes
it back, both calls return the same number and the generator advances once; when the calls
run one after the other they return successive numbers and the generator advances twice. -/
theorem shared_generator_race :
    ((rng_run counter_draw
        [(0, rng_access.load), (1, rng_access.load), (0, rng_access.store),
          (1, rng_access.store)] rng_start).returned 0 = [0] ∧
      (rng_run counter_draw
        [(0, rng_access.load), (1, rng_access.load), (0, rng_access.store),
          (1, rng_access.store)] rng_start).returned 1 = [0] ∧
      (rng_run counter_draw
        [(0, rng_access.load), (1, rng_access.load), (0, rng_access.store),
          (1, rng_access.store)] rng_start).generator = 1) ∧
    ((rng_run counter_draw
        [(0, rng_access.load), (0, rng_access.store), (1, rng_access.load),
          (1, rng_access.store)] rng_start).returned 0 = [0] ∧
      (rng_run counter_draw
        [(0, rng_access.load), (0, rng_access.store), (1, rng_access.load),
          (1, rng_access.store)] rng_start).returned 1 = [1 / 8] ∧
      (rng_run counter_draw
        [(0, rng_access.load), (0, rng_access.store), (1, rng_access.load),
          (1, rng_access.store)] rng_start).generator = 2) := by
  simp [rng_run, rng_exec, rng_start, counter_draw]

/-- C17 fails on the code: after a first call `random_double(0, 1)` the static distribution
keeps the bounds `(0, 1)`, and a second call `random_double(5, 6)` returns a number of
`[0, 1)`, here one half, which is not in `[5, 6)`. -/
theorem random_double_range_stale_bounds :
    (random_double_range half_canonical 0 1 ⟨none, 0⟩).1 = 1 / 2 ∧
    (random_double_range half_canonical 5 6
      (random_double_range half_canonical 0 1 ⟨none, 0⟩).2).1 = 1 / 2 ∧
    ¬ ((5 : ℚ) ≤ (random_double_range half_canonical 5 6
      (random_double_range half_canonical 0 1 ⟨none, 0⟩).2).1) := by
  have e : (random_double_range half_canonical 5 6
      (random_double_range half_canonical 0 1 ⟨none, 0⟩).2).1 = 1 / 2 := by
    simp [random_double_range, uniform_real_distribution, half_canonical]
  refine ⟨?_, e, ?_⟩
  · simp [random_double_range, uniform_real_distribution, half_canonical]
  · rw [e]
    norm_num

end random_claims

/-! ## The range of the colours: claim C18 -/

section range_claims

variable {M S : Type}

end range_claims

/-! ## The focus plane and the pixel shape: claims C19 and C20 -/

section focus_claims

variable {S : Type}

/-- C19: for a non-degenerate configuration, the ray `r = get_ray(i, j)` satisfies
`r.origin + 1*r.direction = pixel_sample`, and `pixel_sample` is on the plane of perfect
focus, `dot(pixel_sample - centre, w) = -focus_dist`; so two rays with the same jitter and
different lens samples meet at ray parameter 1, whatever the defocus angle. -/
theorem rays_meet_on_focus_plane (rs rs1 : random_source ℝ S) (tan : ℝ → ℝ)
    (cam c0 : camera ℝ) (i j : Int) (s s1 : S)
    (hinit : camera.initialize Real.sqrt tan cam = some c0)
    (hnd : non_degenerate cam) :
    (get_ray rs c0 i j s).1.origin + ((1 : ℝ) * (get_ray rs c0 i j s).1.direction) =
      c0.firstpixel_loc + (((i : ℝ) + (sample_square rs s).1.x) * c0.pixel_delta_u)
        + (((j : ℝ) + (sample_square rs s).1.y) * c0.pixel_delta_v) ∧
    vec3.dot ((c0.firstpixel_loc + (((i : ℝ) + (sample_square rs s).1.x) * c0.pixel_delta_u)
        + (((j : ℝ) + (sample_square rs s).1.y) * c0.pixel_delta_v)) - c0.center) c0.w =
      -cam.focus_dist ∧
    ((sample_square rs1 s1).1 = (sample_square rs s).1 →
      (get_ray rs1 c0 i j s1).1.origin + ((1 : ℝ) * (get_ray rs1 c0 i j s1).1.direction) =
        (get_ray rs c0 i j s).1.origin + ((1 : ℝ) * (get_ray rs c0 i j s).1.direction)) := by
  have h1 : ∀ (q : random_source ℝ S) (t : S),
      (get_ray q c0 i j t).1.origin + ((1 : ℝ) * (get_ray q c0 i j t).1.direction) =
        (get_ray q c0 i j t).1.origin + (get_ray q c0 i j t).1.direction := by
    intro q t
    rw [vec3.smul_def]
    simp
  refine ⟨?_, firstpixel_on_focus_plane tan cam c0 hinit hnd.1 hnd.2.1 _ _, fun hj => ?_⟩
  · rw [h1, get_ray_target]
  · rw [h1, h1, get_ray_target, get_ray_target, hj]

theorem rays_meet_on_focus_plane_witness :
    ∃ c0 : camera ℝ,
      camera.initialize Real.sqrt Real.tan { defocus_angle := 10 } = some c0 ∧
      vec3.dot ((c0.firstpixel_loc
          + ((((3 : Int) : ℝ) + (sample_square rim_source ()).1.x) * c0.pixel_delta_u)
          + ((((4 : Int) : ℝ) + (sample_square rim_source ()).1.y) * c0.pixel_delta_v))
          - c0.center) c0.w = -10 ∧
      (get_ray lens_center_source c0 3 4 ()).1.origin
          + ((1 : ℝ) * (get_ray lens_center_source c0 3 4 ()).1.direction) =
        (get_ray rim_source c0 3 4 ()).1.origin
          + ((1 : ℝ) * (get_ray rim_source c0 3 4 ()).1.direction) := by
  obtain ⟨c0, h0⟩ := initialize_isSome_unit_aspect Real.sqrt Real.tan
    ({ defocus_angle := 10 } : camera ℝ) (by norm_num) (by norm_num) (by norm_num)
  obtain ⟨-, h2, h3⟩ := rays_meet_on_focus_plane rim_source lens_center_source Real.tan
    { defocus_angle := 10 } c0 3 4 () () h0
    ⟨by simp [vec3.ext_iff], by simp [vec3.ext_iff, vec3.cross, vec3.sub_def], by decide⟩
  exact ⟨c0, h0, h2, h3 rfl⟩

/-- C20: for a non-degenerate configuration with `IMG_W ≥ 1`, `0 < vfov < 180` and
`focus_dist > 0`, `pixel_delta_u` and `pixel_delta_v` are perpendicular and both have the
length `2*tan(radians(vfov)/2)*focus_dist / IMG_H`, whatever `aspect_ratio` is: the viewport
width is the viewport height times `IMG_W / IMG_H` for the integer height in use. -/
theorem pixels_are_square (cam c0 : camera ℝ)
    (hinit : camera.initialize Real.sqrt Real.tan cam = some c0)
    (hnd : non_degenerate cam) (hW : 1 ≤ cam.IMG_W)
    (h0 : 0 < cam.vfov) (h1 : cam.vfov < 180) (hf : 0 < cam.focus_dist) :
    vec3.dot c0.pixel_delta_u c0.pixel_delta_v = 0 ∧
    vec3.length Real.sqrt c0.pixel_delta_u =
      2 * Real.tan (degrees_to_radians cam.vfov / 2) * cam.focus_dist / (c0.IMG_H : ℝ) ∧
    vec3.length Real.sqrt c0.pixel_delta_v =
      2 * Real.tan (degrees_to_radians cam.vfov / 2) * cam.focus_dist / (c0.IMG_H : ℝ) ∧
    0 < 2 * Real.tan (degrees_to_radians cam.vfov / 2) * cam.focus_dist / (c0.IMG_H : ℝ) ∧
    viewport_width Real.tan c0 =
      viewport_height Real.tan c0 * ((cam.IMG_W : ℝ) / (c0.IMG_H : ℝ)) := by
  obtain ⟨hfrom, hup, -⟩ := hnd
  obtain ⟨huu, hvv, -, huv, -, -⟩ := initialize_basis Real.tan cam c0 hinit hfrom hup
  obtain ⟨hW0, -, -, -, hfd, -⟩ := initialize_fields Real.sqrt Real.tan cam c0 hinit
  obtain ⟨hvf, -⟩ := initialize_viewport Real.sqrt Real.tan cam c0 hinit
  obtain ⟨hpu, hpv⟩ := pixel_delta_scaled Real.sqrt Real.tan cam c0 hinit (by omega)
  have hk := pixel_scale_pos cam c0 hinit h0 h1 hf
  have e : viewport_height Real.tan c0 =
      2 * Real.tan (degrees_to_radians cam.vfov / 2) * cam.focus_dist := by
    rw [viewport_height, hvf, hfd]
  rw [hpu, hpv, ← e]
  refine ⟨?_, length_smul_unit _ _ (le_of_lt hk) huu, length_neg_smul_unit _ _ (le_of_lt hk) hvv,
    hk, ?_⟩
  · rw [vec3.dot_smul_left, vec3.dot_smul_right, huv]
    ring
  · rw [viewport_width, hW0]

theorem pixels_are_square_witness :
    ∃ c0 : camera ℝ, camera.initialize Real.sqrt Real.tan {} = some c0 ∧
      vec3.dot c0.pixel_delta_u c0.pixel_delta_v = 0 ∧
      vec3.length Real.sqrt c0.pixel_delta_u = vec3.length Real.sqrt c0.pixel_delta_v ∧
      0 < vec3.length Real.sqrt c0.pixel_delta_u := by
  obtain ⟨c0, h0⟩ := initialize_isSome_unit_aspect Real.sqrt Real.tan ({} : camera ℝ)
    (by norm_num) (by norm_num) (by norm_num)
  obtain ⟨h1, h2, h3, h4, -⟩ := pixels_are_square {} c0 h0 non_degenerate_default
    (by decide) (by norm_num) (by norm_num) (by norm_num)
  exact ⟨c0, h0, h1, by rw [h2, h3], by rw [h2]; exact h4⟩

end focus_claims

end ParallelTracer
